import Mathlib

/-!
Verification development for the fcitx5-lekhika transliteration engine and
its word store.

C++ `std::string` values are modelled as byte lists (`Str := List Nat`,
one `Nat` per byte).  Out-of-range reads use `List.getD _ _ 0`, matching
the C++ convention that `s[s.size()]` reads `'\0'`.  All functions below
are direct translations of the corresponding functions in
`src/src/lekhika_core.cpp` (class `Transliteration`, class
`DictionaryManager`) and `src/lekhika.cpp` (class `NepaliRomanEngine`).

ASCII bytes used throughout (decimal): '*'=42, '$'=36, '-'=45, '.'=46,
'/'=47, '?'=63, '{'=123, '}'=125, '\'=92, ' '=32, digits 48..57,
'a'=97 'c'=99 'd'=100 'e'=101 'g'=103 'h'=104 'i'=105 'k'=107 'l'=108
'm'=109 'n'=110 'o'=111 'r'=114 's'=115 't'=116 'u'=117 'v'=118 'y'=121,
'D'=68 'N'=78 'T'=84.
-/

/-- Byte strings: the value of a C++ `std::string`, one `Nat` per byte. -/
abbrev Str := List Nat

/-- Read byte `i`, returning 0 (`'\0'`) out of range, as C++ `operator[]`
does at `size()`. -/
def getB (w : Str) (i : Nat) : Nat := w.getD i 0

/-- C `tolower` in the C locale, on a byte. -/
def tolowerB (c : Nat) : Nat := if 65 ≤ c ∧ c ≤ 90 then c + 32 else c

/-- C `isdigit` on a byte. -/
def isdigitB (c : Nat) : Bool := decide (48 ≤ c ∧ c ≤ 57)

/-- C `isalnum` on a byte (C locale; bytes ≥ 128 are not alphanumeric). -/
def isalnumB (c : Nat) : Bool :=
  isdigitB c || decide (65 ≤ c ∧ c ≤ 90) || decide (97 ≤ c ∧ c ≤ 122)

/-- `Transliteration::isVowel`: `"aeiou".find(tolower(c)) != npos`. -/
def isVowelB (c : Nat) : Bool :=
  decide (tolowerB c = 97 ∨ tolowerB c = 101 ∨ tolowerB c = 105 ∨
          tolowerB c = 111 ∨ tolowerB c = 117)

/-- `std::string::replace(pos, cnt, s)` on a byte string. -/
def replaceAt (w : Str) (pos cnt : Nat) (s : Str) : Str :=
  w.take pos ++ s ++ w.drop (pos + cnt)

/-- `std::string::substr(pos, cnt)` on a byte string. -/
def subStr (w : Str) (pos cnt : Nat) : Str := (w.drop pos).take cnt

/-- UTF-8 bytes of the Devanagari virama (halanta) sign (U+094D). -/
def viramaB : Str := [224, 165, 141]

/-- UTF-8 bytes of U+091E (nya) followed by the virama: the cluster the
n+ch rule of `applySmartCorrection` inserts verbatim. -/
def nyaViramaB : Str := [224, 164, 158] ++ viramaB

theorem getB_eq_getElem {w : Str} {i : Nat} (h : i < w.length) :
    getB w i = w[i] := by
  simp [getB, List.getD_eq_getElem?_getD, List.getElem?_eq_getElem h]

theorem getB_drop (w : Str) (p j : Nat) :
    getB (w.drop p) j = getB w (p + j) := by
  simp [getB, List.getD_eq_getElem?_getD, List.getElem?_drop]

/-- Dropping at least the replaced byte out of a one-byte replacement. -/
theorem drop_replaceAt_mid (w : Str) (i k : Nat) (h : i ≤ w.length) (s : Str) :
    (replaceAt w i 1 s).drop (i + k) = (s ++ w.drop (i + 1)).drop k := by
  rw [replaceAt, List.append_assoc]
  rw [show i + k = (w.take i).length + k by
    simp [List.length_take]; omega]
  exact List.drop_append k

theorem count_drop_succ_le (w : Str) (i c : Nat) :
    (w.drop (i + 1)).count c ≤ (w.drop i).count c :=
  (List.drop_sublist_drop_left w (Nat.le_succ i)).count_le c

theorem count_drop_n (w : Str) (i : Nat) (h : i < w.length)
    (hn : getB w i = 110) :
    (w.drop i).count 110 = (w.drop (i + 1)).count 110 + 1 := by
  rw [List.drop_eq_getElem_cons h, ← getB_eq_getElem h, hn,
    List.count_cons_self]

theorem count_drop_ne (w : Str) (i : Nat) (h : i < w.length)
    (hn : getB w i ≠ 110) :
    (w.drop i).count 110 = (w.drop (i + 1)).count 110 := by
  have hne : (110 : Nat) ≠ w[i] := by
    rw [← getB_eq_getElem h]; exact fun he => hn he.symm
  rw [List.drop_eq_getElem_cons h, List.count_cons_of_ne hne]

/-! ## The phonetic correction rule pipeline (`applySmartCorrection`)

The C++ function is a sequence of in-place rewriting stages on one word.
Each stage below translates one contiguous block of the source. -/

/-- Word-ending rules of `applySmartCorrection` (the `word.length() > 3`
block): final non-vowel `y` → `ee`, final-`a` epenthesis with its excluded
endings, final non-vowel+`i` → `ee`.  The four ending characters
`ec_0..ec_3` are read once, from the input word, as in the source. -/
def endingStage (w : Str) : Str :=
  if 3 < w.length then
    let e0 := tolowerB (getB w (w.length - 1))
    let e1 := tolowerB (getB w (w.length - 2))
    let e2 := tolowerB (getB w (w.length - 3))
    let e3 := tolowerB (getB w (w.length - 4))
    let w1 :=
      if isVowelB e0 = false ∧ e0 = 121 then
        w.take (w.length - 1) ++ [101, 101]
      else
        if ¬ (e0 = 97 ∧ e1 = 104 ∧ e2 = 104) ∧
           ¬ (e0 = 97 ∧ e1 = 110 ∧ (e2 = 107 ∨ e2 = 104 ∨ e2 = 114)) ∧
           ¬ (e0 = 97 ∧ e1 = 114 ∧
              ((e2 = 100 ∧ e3 = 110) ∨ (e2 = 116 ∧ e3 = 110))) then
          if e0 = 97 ∧
             (e1 = 109 ∨
              (isVowelB e1 = false ∧ isVowelB e3 = false ∧
               e1 ≠ 121 ∧ e2 ≠ 101)) then
            w ++ [97]
          else w
        else w
    if e0 = 105 ∧ isVowelB e1 = false ∧ ¬ (e1 = 114 ∧ e2 = 114) then
      w1.take (w1.length - 1) ++ [101, 101]
    else w1
  else w

/-- The `'n'` to `"ng"` scan: `n` at index `i > 0` followed by `k` or `g`
(case-insensitive) is replaced by `ng`; the index then advances past the
insertion (`i++` in the loop body plus the loop increment). -/
def nkLoop (w : Str) (i : Nat) : Str :=
  if h : i < w.length then
    if hc : tolowerB (getB w i) = 110 ∧ 0 < i ∧ i + 1 < w.length ∧
        (tolowerB (getB w (i + 1)) = 107 ∨ tolowerB (getB w (i + 1)) = 103)
    then
      nkLoop (replaceAt w i 1 [110, 103]) (i + 2)
    else
      nkLoop w (i + 1)
  else w
  termination_by w.length - i
  decreasing_by
  · simp [replaceAt]; omega
  · omega

/-- The anusvara scan of `NepaliRomanEngine::applySmartCorrection`
(commented out in `Transliteration::applySmartCorrection`): `m` immediately
followed by one of `y r l v s h` (case-insensitive) is overwritten with
`'*'` (42); the scan reads the original right neighbour and advances by
one position. -/
def anusLoop : Str → Str
  | [] => []
  | [c] => [c]
  | c :: d :: rest =>
    if tolowerB c = 109 ∧
       (tolowerB d = 121 ∨ tolowerB d = 114 ∨ tolowerB d = 108 ∨
        tolowerB d = 118 ∨ tolowerB d = 115 ∨ tolowerB d = 104) then
      42 :: anusLoop (d :: rest)
    else c :: anusLoop (d :: rest)

/-- `std::string::find("ng", p)` restricted to the suffix starting at the
tracked index: first (case-sensitive) occurrence of `n` `g`. -/
def findNgAux : Str → Nat → Option Nat
  | [], _ => none
  | [_], _ => none
  | a :: b :: rest, idx =>
    if a = 110 ∧ b = 103 then some idx
    else findNgAux (b :: rest) (idx + 1)

/-- `word.find("ng", p)` on the whole word. -/
def findNg (w : Str) (p : Nat) : Option Nat := findNgAux (w.drop p) p

theorem findNgAux_ge {l : Str} {idx q : Nat} (h : findNgAux l idx = some q) :
    idx ≤ q := by
  induction l generalizing idx with
  | nil => simp [findNgAux] at h
  | cons a rest ih =>
    cases rest with
    | nil => simp [findNgAux] at h
    | cons b rest' =>
      by_cases hc : a = 110 ∧ b = 103
      · simp [findNgAux, hc] at h; omega
      · simp [findNgAux, hc] at h
        have := ih h; omega

theorem findNg_ge {w : Str} {p q : Nat} (h : findNg w p = some q) : p ≤ q :=
  findNgAux_ge h

/-- A hit of `findNgAux` reads two real bytes of the suffix. -/
theorem findNgAux_spec {l : Str} {idx q : Nat} (h : findNgAux l idx = some q) :
    q - idx + 1 < l.length ∧
    l.getD (q - idx) 0 = 110 ∧ l.getD (q - idx + 1) 0 = 103 := by
  induction l generalizing idx with
  | nil => simp [findNgAux] at h
  | cons a rest ih =>
    cases rest with
    | nil => simp [findNgAux] at h
    | cons b rest' =>
      by_cases hc : a = 110 ∧ b = 103
      · simp [findNgAux, hc] at h
        subst h
        simp [hc.1, hc.2]
      · simp [findNgAux, hc] at h
        have hge := findNgAux_ge h
        obtain ⟨ih1, ih2, ih3⟩ := ih h
        have hj : q - idx = (q - (idx + 1)) + 1 := by omega
        rw [hj]
        refine ⟨by simp at ih1 ⊢; omega, ?_, ?_⟩
        · simpa using ih2
        · simpa using ih3

theorem findNg_spec {w : Str} {p q : Nat} (h : findNg w p = some q) :
    q + 1 < w.length ∧ getB w q = 110 ∧ getB w (q + 1) = 103 := by
  have hge : p ≤ q := findNg_ge h
  obtain ⟨h1, h2, h3⟩ := findNgAux_spec h
  have hlen : (w.drop p).length = w.length - p := by simp
  have hg2 : (w.drop p).getD (q - p) 0 = getB w q := by
    rw [show (w.drop p).getD (q - p) 0 = getB (w.drop p) (q - p) from rfl,
      getB_drop w p (q - p), show p + (q - p) = q by omega]
  have hg3 : (w.drop p).getD (q - p + 1) 0 = getB w (q + 1) := by
    rw [show (w.drop p).getD (q - p + 1) 0 = getB (w.drop p) (q - p + 1)
        from rfl,
      getB_drop w p (q - p + 1), show p + (q - p + 1) = q + 1 by omega]
  exact ⟨by omega, by rw [← hg2]; exact h2, by rw [← hg3]; exact h3⟩

/-- The `"ng"`+vowel to `"ngg"` while loop of `applySmartCorrection`:
successive `find("ng", pos)` hits; a hit at index ≥ 2 whose following byte
exists and is a vowel is rewritten to `"ngg"` and the search resumes at
`pos + 3`, otherwise at `pos + 1`. -/
def ngLoop (w : Str) (p : Nat) : Str :=
  match hf : findNg w p with
  | none => w
  | some q =>
    if 2 ≤ q ∧ q + 2 < w.length ∧ isVowelB (getB w (q + 2)) = true then
      ngLoop (replaceAt w q 2 [110, 103, 103]) (q + 3)
    else
      ngLoop w (q + 1)
  termination_by w.length - p
  decreasing_by
  · have h1 := findNg_ge hf
    have h2 := (findNg_spec hf).1
    simp [replaceAt]
    omega
  · have h1 := findNg_ge hf
    have h2 := (findNg_spec hf).1
    omega

/-- The final `n` scan of `applySmartCorrection`: (case-sensitive) `n`
before `T`/`D` becomes `N`; `n` before `ch` not followed by another `h`
becomes the literal bytes of `ञ्`; both variants then skip one index. -/
def nTDLoop (w : Str) (i : Nat) : Str :=
  if h : i < w.length then
    if h1 : getB w i = 110 ∧ i + 1 < w.length then
      if h2 : getB w (i + 1) = 84 ∨ getB w (i + 1) = 68 then
        nTDLoop (replaceAt w i 1 [78]) (i + 2)
      else
        if h3 : getB w (i + 1) = 99 ∧ i + 2 < w.length ∧
            getB w (i + 2) = 104 ∧
            ¬ (i + 3 < w.length ∧ getB w (i + 3) = 104) then
          nTDLoop (replaceAt w i 1 nyaViramaB) (i + 2)
        else nTDLoop w (i + 1)
    else nTDLoop w (i + 1)
  else w
  termination_by 6 * ((w.drop i).count 110) + (w.length - i)
  decreasing_by
  · have hd : (replaceAt w i 1 [78]).drop (i + 2) = w.drop (i + 2) := by
      have hm := drop_replaceAt_mid w i 2 (le_of_lt h) [78]
      simpa [List.drop_drop] using hm
    have hlen : (replaceAt w i 1 [78]).length = w.length := by
      simp [replaceAt]; omega
    have hc2 : (w.drop (i + 2)).count 110 ≤ (w.drop (i + 1)).count 110 := by
      simpa using count_drop_succ_le w (i + 1) 110
    have hc := count_drop_n w i h h1.1
    rw [hd, hlen]
    omega
  · have hd : (replaceAt w i 1 nyaViramaB).drop (i + 2) =
        [158, 224, 165, 141] ++ w.drop (i + 1) := by
      have hm := drop_replaceAt_mid w i 2 (le_of_lt h) nyaViramaB
      simpa [nyaViramaB, viramaB] using hm
    have hlen : (replaceAt w i 1 nyaViramaB).length = w.length + 5 := by
      simp [replaceAt, nyaViramaB, viramaB]; omega
    have hc : ([158, 224, 165, 141] ++ w.drop (i + 1)).count 110 =
        (w.drop (i + 1)).count 110 := by
      simp [List.count_append, List.count_cons]
    have hcn := count_drop_n w i h h1.1
    rw [hd, hlen, hc]
    omega
  · have hc := count_drop_n w i h h1.1
    omega
  · by_cases hn : getB w i = 110
    · have hc := count_drop_n w i h hn
      omega
    · have hc := count_drop_ne w i h hn
      omega

/-- `Transliteration::applySmartCorrection` (`src/src/lekhika_core.cpp`):
ending rules, then the n→ng scan, then (with the anusvara scan commented
out) the ng→ngg expansion and the final n scans. -/
def applySmartCorrection (w : Str) : Str :=
  nTDLoop (ngLoop (nkLoop (endingStage w) 0) 0) 0

/-- `NepaliRomanEngine::applySmartCorrection` (`src/lekhika.cpp`):
identical to `Transliteration::applySmartCorrection` except that the
anusvara scan is active, between the n→ng scan and the ng→ngg expansion. -/
def applySmartCorrectionNR (w : Str) : Str :=
  nTDLoop (ngLoop (anusLoop (nkLoop (endingStage w) 0)) 0) 0

/-! ## Tables, preprocessing and the full `transliterate` pipeline -/

/-- Association-list model of `std::unordered_map<std::string, std::string>`
lookups (`count` + `operator[]` as used read-only by the engine). -/
def lookupStr : List (Str × Str) → Str → Option Str
  | [], _ => none
  | (k, v) :: rest, key => if k = key then some v else lookupStr rest key

/-- The four engine flags (`EngineOptions`). -/
structure Opts where
  autoCorrect : Bool
  smart : Bool
  indic : Bool
  symbols : Bool

/-- `Transliteration::applyAutoCorrection`: override-table lookup. -/
def applyAutoCorrection (sw : List (Str × Str)) (w : Str) : Str :=
  match lookupStr sw w with
  | some v => v
  | none => w

/-- `Transliteration::preprocess`: override lookup first (returning early
when it changed the word), then the smart-correction pipeline. -/
def preprocess (opts : Opts) (sw : List (Str × Str)) (w : Str) : Str :=
  if opts.autoCorrect = true ∧ applyAutoCorrection sw w ≠ w then
    applyAutoCorrection sw w
  else
    if opts.smart = true then applySmartCorrection w else w

/-- One step of `Transliteration::preprocessInput`: `prev` is
`input[i-1]` (`none` at `i = 0`).  `'*'` (42) is the non-breaking special
symbol; a space (32) is inserted before `'.'`, `'?'` or a mapped
single-character key when the byte is not alphanumeric and not already
preceded by a space. -/
def prevNonSpace : Option Nat → Bool
  | none => false
  | some pc => decide (pc ≠ 32)

def preInputAux (cm : List (Str × Str)) : Option Nat → Str → Str
  | _, [] => []
  | prev, c :: rest =>
    if c = 42 then
      c :: preInputAux cm (some c) rest
    else
      if prevNonSpace prev = true ∧
         (c = 46 ∨ c = 63 ∨ (lookupStr cm [c]).isSome = true) ∧
         isalnumB c = false then
        32 :: c :: preInputAux cm (some c) rest
      else
        c :: preInputAux cm (some c) rest

/-- `Transliteration::preprocessInput`. -/
def preprocessInput (cm : List (Str × Str)) (input : Str) : Str :=
  preInputAux cm none input

/-- `std::string::find(c, pos)` on the suffix, returning an absolute
index. -/
def findByteAux (c : Nat) : Str → Nat → Option Nat
  | [], _ => none
  | x :: xs, idx => if x = c then some idx else findByteAux c xs (idx + 1)

/-- `std::string::find(c, pos)`. -/
def findByte (w : Str) (c : Nat) (pos : Nat) : Option Nat :=
  findByteAux c (w.drop pos) pos

theorem findByteAux_ge {c : Nat} {l : Str} {idx q : Nat}
    (h : findByteAux c l idx = some q) : idx ≤ q := by
  induction l generalizing idx with
  | nil => simp [findByteAux] at h
  | cons x xs ih =>
    by_cases hx : x = c
    · simp [findByteAux, hx] at h; omega
    · simp [findByteAux, hx] at h
      have := ih h; omega

theorem findByteAux_spec {c : Nat} {l : Str} {idx q : Nat}
    (h : findByteAux c l idx = some q) :
    q - idx < l.length ∧ l.getD (q - idx) 0 = c := by
  induction l generalizing idx with
  | nil => simp [findByteAux] at h
  | cons x xs ih =>
    by_cases hx : x = c
    · simp [findByteAux, hx] at h
      subst h
      simp [hx]
    · simp [findByteAux, hx] at h
      have hge := findByteAux_ge h
      obtain ⟨ih1, ih2⟩ := ih h
      have hj : q - idx = (q - (idx + 1)) + 1 := by omega
      rw [hj]
      exact ⟨by simp at ih1 ⊢; omega, by simpa using ih2⟩

theorem findByte_ge {w : Str} {c pos q : Nat}
    (h : findByte w c pos = some q) : pos ≤ q :=
  findByteAux_ge h

theorem findByte_spec {w : Str} {c pos q : Nat}
    (h : findByte w c pos = some q) : q < w.length ∧ getB w q = c := by
  have hge := findByte_ge h
  obtain ⟨h1, h2⟩ := findByteAux_spec h
  have hlen : (w.drop pos).length = w.length - pos := by simp
  have hg : (w.drop pos).getD (q - pos) 0 = getB w q := by
    rw [show (w.drop pos).getD (q - pos) 0 = getB (w.drop pos) (q - pos)
        from rfl,
      getB_drop w pos (q - pos), show pos + (q - pos) = q by omega]
  exact ⟨by omega, by rw [← hg]; exact h2⟩

/-- Decimal digits of a counter, as bytes (`std::to_string`). -/
def natDigits (n : Nat) : Str := (Nat.toDigits 10 n).map Char.toNat

/-- The positional mask `"$-" + std::to_string(cnt) + "-$"`. -/
def maskStr (cnt : Nat) : Str := [36, 45] ++ natDigits cnt ++ [45, 36]

/-- The literal-span masking loop of `Transliteration::transliterate`:
each `{...}` span (an unmatched `{` extends to the last index) is replaced
by a positional mask; the span's content is recorded as
`token.substr(1, token.length() - 2)`. -/
def maskLoop (processed : Str) (tokens : List (Str × Str))
    (cnt endIndex : Nat) : Str × List (Str × Str) :=
  match hf : findByte processed 123 endIndex with
  | none => (processed, tokens)
  | some b =>
    let e := match findByte processed 125 (b + 1) with
      | none => processed.length - 1
      | some e' => e'
    let token := subStr processed b (e - b + 1)
    let mask := maskStr cnt
    let content := subStr token 1 (token.length - 2)
    maskLoop (replaceAt processed b token.length mask)
      (tokens ++ [(mask, content)]) (cnt + 1) (b + mask.length)
  termination_by processed.length - endIndex
  decreasing_by
    have hb := findByte_ge hf
    have hlt := (findByte_spec hf).1
    simp [replaceAt, subStr, maskStr]
    omega

/-- Split a byte string at a delimiter, as the `std::getline` loops do
(the final piece carries no trailing delimiter; empty pieces are produced
and later skipped by the callers' `empty()` checks). -/
def splitByteAux (d : Nat) : Str → Str → List Str
  | [], cur => [cur.reverse]
  | c :: rest, cur =>
    if c = d then cur.reverse :: splitByteAux d rest []
    else splitByteAux d rest (c :: cur)

/-- Split on a delimiter byte. -/
def splitByte (w : Str) (d : Nat) : List Str := splitByteAux d w []

/-- The longest-match `for` loop inside `transliterateSegment`: try prefix
lengths from the whole remainder down to 1; a one-byte digit with Indic
numbers disabled, a one-byte non-alphanumeric with symbol transliteration
disabled, or any `charMap` hit stops the loop.  Returns the emitted text
and the number of bytes erased from the remainder. -/
def tryMatch (cm : List (Str × Str)) (opts : Opts) (rem : Str) :
    Nat → Option (Str × Nat)
  | 0 => none
  | i + 1 =>
    let part := rem.take (i + 1)
    if part.length = 1 ∧ isdigitB (getB part 0) = true ∧ opts.indic = false
    then some (part, i + 1)
    else
      if part.length = 1 ∧ isalnumB (getB part 0) = false ∧
          opts.symbols = false then
        some (part, i + 1)
      else
        match lookupStr cm part with
        | some v => some (v, i + 1)
        | none => tryMatch cm opts rem i

/-- The fallback branch of the matcher loop (`matched.empty()`): emit one
byte (or a mapped single byte), where the byte read is `rem[0]` with the
C++ `'\0'`-at-`size()` convention. -/
def elseStep (cm : List (Str × Str)) (opts : Opts) (r : Str) : Str :=
  let c := getB r 0
  if isdigitB c = true ∧ opts.indic = false then [c]
  else
    if isalnumB c = false ∧ opts.symbols = false then [c]
    else
      match lookupStr cm [c] with
      | some v => v
      | none => [c]

theorem tryMatch_consumes {cm : List (Str × Str)} {opts : Opts} {rem m : Str}
    {i0 i : Nat} (h : tryMatch cm opts rem i0 = some (m, i)) :
    1 ≤ i ∧ i ≤ i0 := by
  induction i0 with
  | zero => simp [tryMatch] at h
  | succ j ih =>
    rw [tryMatch] at h
    split at h
    · simp at h; omega
    · split at h
      · simp at h; omega
      · split at h
        · simp_all; omega
        · have := ih h; omega

/-- The inner `while (!rem.empty())` loop of `transliterateSegment`.  In
the C++ code a `charMap` hit erases the matched prefix inside the `for`
loop; when the mapped value is empty the `else` branch then reads and
erases one more byte of the already-shortened remainder. -/
def greedyLoop (cm : List (Str × Str)) (opts : Opts) (rem : Str) : Str :=
  if hr : rem = [] then []
  else
    match hm : tryMatch cm opts rem rem.length with
    | some (m, i) =>
      if m ≠ [] then m ++ greedyLoop cm opts (rem.drop i)
      else
        elseStep cm opts (rem.drop i) ++
          greedyLoop cm opts ((rem.drop i).drop 1)
    | none => elseStep cm opts rem ++ greedyLoop cm opts (rem.drop 1)
  termination_by rem.length
  decreasing_by
  · have := tryMatch_consumes hm
    have hlen : 0 < rem.length := List.length_pos.mpr hr
    simp
    omega
  · have := tryMatch_consumes hm
    have hlen : 0 < rem.length := List.length_pos.mpr hr
    simp
    omega
  · have hlen : 0 < rem.length := List.length_pos.mpr hr
    simp
    omega

/-- Whether a byte string ends with the three virama bytes, as tested by
`transliterateSegment` on `subResult`. -/
def endsVirama (r : Str) : Bool :=
  decide (3 ≤ r.length) &&
    decide (getB r (r.length - 3) = 224) &&
    decide (getB r (r.length - 2) = 165) &&
    decide (getB r (r.length - 1) = 141)

/-- Handling of one non-empty `'/'`-delimited sub-segment inside
`transliterateSegment`: greedy matching, then trailing-virama suppression
unless the sub-segment ends with `'\'` (92) or has length 1. -/
def processSub (cm : List (Str × Str)) (opts : Opts) (sub : Str) : Str :=
  let r := greedyLoop cm opts sub
  if endsVirama r = true ∧
     ¬ (sub ≠ [] ∧ sub.getLast? = some 92) ∧ 1 < sub.length then
    r.take (r.length - 3)
  else r

/-- `Transliteration::transliterateSegment`: split the token on `'/'`,
process each non-empty sub-segment, concatenate. -/
def transliterateSegment (cm : List (Str × Str)) (opts : Opts)
    (input : Str) : Str :=
  ((splitByte input 47).filter (fun s => s ≠ [])).foldl
    (fun acc sub => acc ++ processSub cm opts sub) []

/-- Per-token dispatch inside `Transliteration::transliterate`'s
tokenization loop. -/
def transliterateToken (cm sw : List (Str × Str)) (opts : Opts)
    (seg : Str) : Str :=
  if seg.length = 1 ∧ isdigitB (getB seg 0) = true ∧ opts.indic = false then
    seg
  else
    if seg.length = 1 ∧ isalnumB (getB seg 0) = false ∧
        opts.symbols = false then
      seg
    else
      if seg.length = 1 ∧ (lookupStr cm seg).isSome = true then
        match lookupStr cm seg with
        | some v => v
        | none => seg
      else
        transliterateSegment cm opts (preprocess opts sw seg)

/-- Join the kept tokens with single spaces (the `first`/`result += " "`
logic of the tokenization loop). -/
def joinSpace : List Str → Str
  | [] => []
  | [s] => s
  | s :: rest => s ++ 32 :: joinSpace rest

/-- `std::string::find(pat, pos)` for a non-empty pattern: first index
`≥ pos` where `pat` occurs. -/
def findSubAux (pat : Str) : Str → Nat → Option Nat
  | l, idx =>
    if pat.isPrefixOf l then some idx
    else
      match l with
      | [] => none
      | _ :: xs => findSubAux pat xs (idx + 1)

/-- `std::string::find(pat, pos)` with absolute index. -/
def findSub (w pat : Str) (pos : Nat) : Option Nat :=
  findSubAux pat (w.drop pos) pos

theorem findSubAux_ge {pat l : Str} {idx q : Nat}
    (h : findSubAux pat l idx = some q) : idx ≤ q := by
  induction l generalizing idx with
  | nil =>
    rw [findSubAux] at h
    split at h
    · simp at h; omega
    · simp at h
  | cons x xs ih =>
    rw [findSubAux] at h
    split at h
    · simp at h; omega
    · have := ih h; omega

theorem findSubAux_le_length {pat l : Str} {idx q : Nat} (hp : pat ≠ [])
    (h : findSubAux pat l idx = some q) :
    q - idx + pat.length ≤ l.length := by
  induction l generalizing idx with
  | nil =>
    rw [findSubAux] at h
    split at h
    · next hpre =>
      simp [List.isPrefixOf_iff_prefix] at hpre
      simp [hpre] at hp
    · simp at h
  | cons x xs ih =>
    rw [findSubAux] at h
    split at h
    · next hpre =>
      simp at h
      subst h
      simp [List.isPrefixOf_iff_prefix] at hpre
      have := hpre.length_le
      simp at this ⊢
      omega
    · have hge := findSubAux_ge h
      have := ih h
      simp at this ⊢
      omega

theorem findSub_ge {w pat : Str} {pos q : Nat}
    (h : findSub w pat pos = some q) : pos ≤ q :=
  findSubAux_ge h

theorem findSub_le_length {w pat : Str} {pos q : Nat} (hp : pat ≠ [])
    (h : findSub w pat pos = some q) : q + pat.length ≤ w.length := by
  have hge := findSubAux_ge h
  have hplen : 0 < pat.length := List.length_pos.mpr hp
  have := findSubAux_le_length hp h
  simp at this
  omega

/-- The mask-restoration replacement loop of `transliterate`: find the
(transliterated) mask, splice in the original literal, continue searching
after it.  The C++ loop does not terminate when the pattern is empty and
the replacement is not; the empty-pattern guard below makes the model
total (no mask transliterates to the empty string in any configuration
exercised here). -/
def replaceAllFrom (pat repl : Str) (w : Str) (pos : Nat) : Str :=
  if hp : pat = [] then w
  else
    match hf : findSub w pat pos with
    | none => w
    | some q => replaceAllFrom pat repl (replaceAt w q pat.length repl)
        (q + repl.length)
  termination_by w.length - pos
  decreasing_by
    have hge := findSub_ge hf
    have hle := findSub_le_length hp hf
    have hplen : 0 < pat.length := List.length_pos.mpr hp
    simp [replaceAt]
    omega

/-- `Transliteration::transliterate`: punctuation spacing, literal-span
masking, space tokenization with per-token dispatch, then mask
restoration.  `engTokens` is modelled in insertion order (the C++
`std::unordered_map` iteration order is unspecified; every input
considered here produces at most one mask). -/
def transliterate (cm sw : List (Str × Str)) (opts : Opts)
    (input : Str) : Str :=
  let pre := preprocessInput cm input
  let masked := maskLoop pre [] 1 0
  let segs := (splitByte masked.1 32).filter (fun s => s ≠ [])
  let result := joinSpace (segs.map (transliterateToken cm sw opts))
  masked.2.foldl
    (fun r mk => replaceAllFrom (transliterateSegment cm opts mk.1) mk.2 r 0)
    result

/-! ## The word store (`DictionaryManager`)

The SQLite-backed store is modelled by its `words` table: a list of
`(word, frequency)` rows in rowid (insertion) order, with the `UNIQUE`
constraint expressed as `Nodup` hypotheses on the key column where a
claim needs it.  SQL semantics used: `=` on TEXT is case-sensitive;
`LIKE` is case-insensitive on ASCII; `ORDER BY frequency DESC` sorts by
descending frequency (tie order unspecified in SQLite, fixed here by a
stable insertion sort); `LIMIT n` with `n ≥ 0` truncates. -/

/-- `addWord`: `INSERT INTO words (word) VALUES (?) ON CONFLICT(word)
DO UPDATE SET frequency = frequency + 1`. -/
def addRow (rows : List (String × Nat)) (w : String) : List (String × Nat) :=
  if rows.any (fun r => r.1 = w) then
    rows.map (fun r => if r.1 = w then (r.1, r.2 + 1) else r)
  else rows ++ [(w, 1)]

/-- ASCII lowercasing of a character (SQLite `LIKE` folds only ASCII). -/
def lowerChar (c : Char) : Char :=
  if 'A' ≤ c ∧ c ≤ 'Z' then Char.ofNat (c.toNat + 32) else c

/-- ASCII lowercasing of a string. -/
def lowerStr (s : String) : String := String.mk (s.data.map lowerChar)

/-- SQLite `word LIKE input || '%'`: case-insensitive (ASCII) test that
`input` starts the word. -/
def likeStartsWith (input w : String) : Bool :=
  (lowerStr input).data.isPrefixOf (lowerStr w).data

/-- The row order produced by `ORDER BY frequency DESC`. -/
def freqGE (a b : String × Nat) : Prop := b.2 ≤ a.2

instance : DecidableRel freqGE := fun a b => Nat.decLe b.2 a.2

/-- `ORDER BY frequency DESC` as an insertion sort (SQLite leaves the
order of equal frequencies unspecified; the model fixes one). -/
def sortFreqDesc (l : List (String × Nat)) : List (String × Nat) :=
  l.insertionSort freqGE

/-- `DictionaryManager::findWords`: exact-match query first, early return
when it already reaches `limit` (`(int)results.size() >= limit`), then a
`LIKE input%` prefix query ordered by descending frequency with
`LIMIT (limit - results.size())`. -/
def findWords (rows : List (String × Nat)) (input : String)
    (limit : Int) : List String :=
  if input = "" then []
  else
    let exact :=
      (sortFreqDesc (rows.filter (fun r => r.1 = input))).map Prod.fst
    if limit ≤ (exact.length : Int) then exact
    else
      let pref := sortFreqDesc (rows.filter (fun r => likeStartsWith input r.1))
      exact ++ (pref.take (limit - (exact.length : Int)).toNat).map Prod.fst

/-- The store: current `words` table plus the open-transaction snapshot
(`none` when no transaction is open).  SQLite rolls a failed transaction
back to its start, modelled by keeping the pre-`BEGIN` rows. -/
structure Store where
  rows : List (String × Nat)
  snap : Option (List (String × Nat))

/-- `DictionaryManager::addWord` on a store. -/
def storeAddWord (st : Store) (w : String) : Store :=
  { st with rows := addRow st.rows w }

/-- `DictionaryManager::beginTransaction`: `BEGIN TRANSACTION` throws on
SQLite error — in particular when a transaction is already open, or per
the failure oracle `ok`. -/
def beginTransaction (st : Store) (ok : Bool) : Except Unit Store :=
  if st.snap.isSome ∨ ok = false then Except.error ()
  else Except.ok { st with snap := some st.rows }

/-- `DictionaryManager::commitTransaction`: `COMMIT` throws on SQLite
error — when no transaction is open, or per the failure oracle `ok`. -/
def commitTransaction (st : Store) (ok : Bool) : Except Unit Store :=
  if st.snap.isNone ∨ ok = false then Except.error ()
  else Except.ok { st with snap := none }

/-- `DictionaryManager::rollbackTransaction`: `ROLLBACK`, errors ignored
(no-op without an open transaction). -/
def rollbackTransaction (st : Store) : Store :=
  match st.snap with
  | some s => { rows := s, snap := none }
  | none => st

/-- One chunk of `learnWorker` (`src/src/lekhika-trainer.cpp`):
`try { beginTransaction(); for each word { getWordFrequency; addWord; }
commitTransaction(); } catch { rollbackTransaction(); dbError = true; }`.
`okB`/`okC` are the SQLite success oracles of `BEGIN`/`COMMIT` (the only
calls in the block that can throw); the returned flag is `dbError`. -/
def learnChunk (st : Store) (ws : List String) (okB okC : Bool) :
    Store × Bool :=
  match beginTransaction st okB with
  | Except.error _ => (rollbackTransaction st, true)
  | Except.ok st1 =>
    let st2 := ws.foldl storeAddWord st1
    match commitTransaction st2 okC with
    | Except.error _ => (rollbackTransaction st2, true)
    | Except.ok st3 => (st3, false)

/-! ## Store lemmas -/

theorem foldl_store_rows (ws : List String) (st : Store) :
    (ws.foldl storeAddWord st).rows = ws.foldl addRow st.rows := by
  induction ws generalizing st with
  | nil => rfl
  | cons w ws ih => simpa [storeAddWord] using ih (storeAddWord st w)

theorem foldl_store_snap (ws : List String) (st : Store) :
    (ws.foldl storeAddWord st).snap = st.snap := by
  induction ws generalizing st with
  | nil => rfl
  | cons w ws ih => simpa [storeAddWord] using ih (storeAddWord st w)

theorem sortFreqDesc_perm (l : List (String × Nat)) :
    (sortFreqDesc l).Perm l :=
  List.perm_insertionSort freqGE l

theorem sortFreqDesc_sorted (l : List (String × Nat)) :
    List.Sorted freqGE (sortFreqDesc l) := by
  haveI : IsTotal (String × Nat) freqGE :=
    ⟨fun a b => by simp [freqGE]; omega⟩
  haveI : IsTrans (String × Nat) freqGE :=
    ⟨fun a b c hab hbc => by simp [freqGE] at *; omega⟩
  exact List.sorted_insertionSort freqGE l

theorem sortFreqDesc_length (l : List (String × Nat)) :
    (sortFreqDesc l).length = l.length :=
  (sortFreqDesc_perm l).length_eq

theorem sortFreqDesc_short (l : List (String × Nat)) (h : l.length ≤ 1) :
    sortFreqDesc l = l := by
  match l, h with
  | [], _ => rfl
  | [x], _ => rfl

/-- Under the `UNIQUE` word constraint the exact-match query returns
exactly the stored row. -/
theorem filter_key_eq {rows : List (String × Nat)} {p : String} {f : Nat}
    (hnd : (rows.map Prod.fst).Nodup) (hm : (p, f) ∈ rows) :
    rows.filter (fun r => r.1 = p) = [(p, f)] := by
  induction rows with
  | nil => simp at hm
  | cons r rest ih =>
    simp only [List.map_cons, List.nodup_cons] at hnd
    rcases List.mem_cons.mp hm with hr | hr
    · subst hr
      have hrest : rest.filter (fun r => r.1 = p) = [] := by
        apply List.filter_eq_nil_iff.mpr
        intro x hx hfx
        simp only [decide_eq_true_eq] at hfx
        have hxm : x.1 ∈ rest.map Prod.fst := List.mem_map_of_mem Prod.fst hx
        exact hnd.1 (hfx ▸ hxm)
      simp [hrest]
    · have hne : r.1 ≠ p := by
        intro he
        have hxm : (p, f).1 ∈ rest.map Prod.fst :=
          List.mem_map_of_mem Prod.fst hr
        exact hnd.1 (he ▸ hxm)
      simp [hne, ih hnd.2 hr]

theorem filter_key_len {rows : List (String × Nat)} {p : String}
    (hnd : (rows.map Prod.fst).Nodup) :
    (rows.filter (fun r => r.1 = p)).length ≤ 1 := by
  induction rows with
  | nil => simp
  | cons r rest ih =>
    simp only [List.map_cons, List.nodup_cons] at hnd
    by_cases hr : r.1 = p
    · have hrest : rest.filter (fun r => r.1 = p) = [] := by
        apply List.filter_eq_nil_iff.mpr
        intro x hx hfx
        simp only [decide_eq_true_eq] at hfx
        have hxm : x.1 ∈ rest.map Prod.fst := List.mem_map_of_mem Prod.fst hx
        exact hnd.1 ((hfx.trans hr.symm) ▸ hxm)
      simp [hr, hrest]
    · simpa [hr] using ih hnd.2

/-! ## Claims about the word store -/

/-- C2: a `learnWorker` chunk wrapped in `beginTransaction` /
`commitTransaction` that throws (in `BEGIN` or `COMMIT`, the only throwing
calls in the block) triggers `rollbackTransaction` and leaves the word
table — its rows, hence its word count and every stored frequency —
exactly as before `beginTransaction`; rows committed by earlier chunks are
part of that preserved state.  A chunk that does not throw commits exactly
the batch's `addWord` effects. -/
theorem claim_C2_transaction_rollback (st : Store) (ws : List String)
    (okB okC : Bool) (h : st.snap = none) :
    ((learnChunk st ws okB okC).2 = true →
      (learnChunk st ws okB okC).1.rows = st.rows) ∧
    ((learnChunk st ws okB okC).2 = false →
      (learnChunk st ws okB okC).1.rows = ws.foldl addRow st.rows) := by
  cases okB with
  | false =>
    simp [learnChunk, beginTransaction, rollbackTransaction, h]
  | true =>
    cases okC with
    | false =>
      simp [learnChunk, beginTransaction, commitTransaction,
        rollbackTransaction, h, foldl_store_snap, foldl_store_rows]
    | true =>
      simp [learnChunk, beginTransaction, commitTransaction,
        rollbackTransaction, h, foldl_store_snap, foldl_store_rows]

/-- Witness for C2 at a concrete store and batch: the commit fails, the
chunk reports a database error, and the rows are the pre-transaction
rows. -/
theorem claim_C2_transaction_rollback_witness :
    (learnChunk ⟨[("a", 1)], none⟩ ["a", "b"] true false).2 = true ∧
    (learnChunk ⟨[("a", 1)], none⟩ ["a", "b"] true false).1.rows =
      [("a", 1)] :=
  ⟨rfl, (claim_C2_transaction_rollback ⟨[("a", 1)], none⟩ ["a", "b"]
    true false rfl).1 rfl⟩

/-- C3, counterexample to the claim as stated: with the single row
`("a", 1)` stored, `findWords "a" 0` returns one result, which is more
than `limit = 0` (the exact-match early return ignores a non-positive
limit). -/
theorem claim_C3_counterexample :
    findWords [("a", 1)] "a" 0 = ["a"] ∧
    ¬ (((findWords [("a", 1)] "a" 0).length : Int) ≤ 0) := by
  constructor
  · rfl
  · decide

/-- C3, amended: for `limit ≥ 1`, `findWords` returns at most `limit`
results; a stored word equal to the prefix appears at position 0; for
`limit ≤ 0` the result is exactly the exact-match list (at most one
element, possibly exceeding the non-positive limit); the prefix-query
rows are ordered by descending frequency. -/
theorem claim_C3_findWords_amended (rows : List (String × Nat)) (p : String)
    (limit : Int) (hp : p ≠ "") (hnd : (rows.map Prod.fst).Nodup) :
    (1 ≤ limit → ((findWords rows p limit).length : Int) ≤ limit) ∧
    (∀ f : Nat, (p, f) ∈ rows → (findWords rows p limit).head? = some p) ∧
    (limit ≤ 0 → findWords rows p limit =
      (rows.filter (fun r => r.1 = p)).map Prod.fst) ∧
    List.Sorted freqGE
      (sortFreqDesc (rows.filter (fun r => likeStartsWith p r.1))) := by
  have hel : ((sortFreqDesc (rows.filter (fun r => r.1 = p))).map
      Prod.fst).length ≤ 1 := by
    rw [List.length_map, sortFreqDesc_length]
    exact filter_key_len hnd
  refine ⟨?_, ?_, ?_, sortFreqDesc_sorted _⟩
  · intro h1
    rw [findWords, if_neg hp]
    by_cases hle : limit ≤
        (((sortFreqDesc (rows.filter (fun r => r.1 = p))).map
          Prod.fst).length : Int)
    · rw [if_pos hle]
      simp only [List.length_map, sortFreqDesc_length] at hle hel ⊢
      omega
    · rw [if_neg hle]
      simp only [List.length_append, List.length_map, List.length_take,
        sortFreqDesc_length] at hle hel ⊢
      push_cast
      omega
  · intro f hm
    have hfil := filter_key_eq hnd hm
    have hexact : (sortFreqDesc (rows.filter (fun r => r.1 = p))).map
        Prod.fst = [p] := by
      rw [hfil, sortFreqDesc_short _ (by simp)]
      rfl
    rw [findWords, if_neg hp, hexact]
    by_cases hle : limit ≤ (([p] : List String).length : Int)
    · rw [if_pos hle]; rfl
    · rw [if_neg hle]; rfl
  · intro h0
    have hle : limit ≤
        (((sortFreqDesc (rows.filter (fun r => r.1 = p))).map
          Prod.fst).length : Int) := by omega
    rw [findWords, if_neg hp, if_pos hle,
      sortFreqDesc_short _ (filter_key_len hnd)]

/-- Witness for C3 at a concrete store: with `("ab",5)` and `("a",1)`
stored, `findWords "a" 2` puts the exact match first and returns at most
two results. -/
theorem claim_C3_findWords_amended_witness :
    ("a" : String) ≠ "" ∧
    (([("ab", 5), ("a", 1)] : List (String × Nat)).map Prod.fst).Nodup ∧
    (findWords [("ab", 5), ("a", 1)] "a" 2).head? = some "a" ∧
    ((findWords [("ab", 5), ("a", 1)] "a" 2).length : Int) ≤ 2 :=
  ⟨by decide, by decide,
    (claim_C3_findWords_amended [("ab", 5), ("a", 1)] "a" 2 (by decide)
      (by decide)).2.1 1 (by decide),
    (claim_C3_findWords_amended [("ab", 5), ("a", 1)] "a" 2 (by decide)
      (by decide)).1 (by decide)⟩

/-- C9, counterexample to the claim as stated: `"a"` is stored and
`limit = 2`, but higher-frequency prefix matches fill the prefix query's
`LIMIT limit - 1` window, so `"a"` is returned only once, not twice. -/
theorem claim_C9_counterexample :
    findWords [("ab", 5), ("ac", 4), ("a", 1)] "a" 2 = ["a", "ab"] ∧
    ("a", 1) ∈ [("ab", 5), ("ac", 4), ("a", 1)] ∧
    ¬ ((findWords [("ab", 5), ("ac", 4), ("a", 1)] "a" 2).count "a" = 2) :=
  ⟨rfl, by decide, by decide⟩

/-- C9, amended: a stored word `p` is returned twice by
`findWords p limit` — once by the exact query and once by the
`LIKE p%` prefix query — whenever `limit ≥ 2` and `p` survives the prefix
query's `LIMIT limit - 1` truncation of the descending-frequency order
(in particular whenever all prefix matches fit in the window). -/
theorem claim_C9_duplicate_amended (rows : List (String × Nat))
    (p : String) (f : Nat) (limit : Int) (hp : p ≠ "")
    (hnd : (rows.map Prod.fst).Nodup) (hm : (p, f) ∈ rows)
    (h2 : 2 ≤ limit)
    (hwin : p ∈ ((sortFreqDesc (rows.filter
        (fun r => likeStartsWith p r.1))).map Prod.fst).take
        (limit - 1).toNat) :
    (findWords rows p limit).count p = 2 := by
  have hfil := filter_key_eq hnd hm
  have hexact : (sortFreqDesc (rows.filter (fun r => r.1 = p))).map
      Prod.fst = [p] := by
    rw [hfil, sortFreqDesc_short _ (by simp)]
    rfl
  have hnotle : ¬ (limit ≤ (([p] : List String).length : Int)) := by
    simp; omega
  rw [findWords, if_neg hp, hexact, if_neg hnotle]
  rw [List.count_append]
  have h1 : ([p] : List String).count p = 1 := by simp
  have hmap : ((sortFreqDesc (rows.filter
      (fun r => likeStartsWith p r.1))).take
        (limit - (([p] : List String).length : Int)).toNat).map Prod.fst =
      ((sortFreqDesc (rows.filter (fun r => likeStartsWith p r.1))).map
        Prod.fst).take (limit - 1).toNat := by
    simp [List.map_take]
  rw [hmap]
  have hup : (((sortFreqDesc (rows.filter
      (fun r => likeStartsWith p r.1))).map Prod.fst).take
        (limit - 1).toNat).count p ≤
      ((sortFreqDesc (rows.filter (fun r => likeStartsWith p r.1))).map
        Prod.fst).count p :=
    (List.take_sublist _ _).count_le p
  have hperm : ((sortFreqDesc (rows.filter
      (fun r => likeStartsWith p r.1))).map Prod.fst).count p =
      ((rows.filter (fun r => likeStartsWith p r.1)).map Prod.fst).count p :=
    ((sortFreqDesc_perm _).map Prod.fst).count_eq p
  have hsub : ((rows.filter (fun r => likeStartsWith p r.1)).map
      Prod.fst).count p ≤ (rows.map Prod.fst).count p :=
    (List.filter_sublist _ |>.map Prod.fst).count_le p
  have hnd1 : (rows.map Prod.fst).count p ≤ 1 :=
    List.nodup_iff_count_le_one.mp hnd p
  have hlow : 0 < (((sortFreqDesc (rows.filter
      (fun r => likeStartsWith p r.1))).map Prod.fst).take
        (limit - 1).toNat).count p :=
    List.count_pos_iff.mpr hwin
  rw [h1]
  omega

/-- Witness for C9's amended statement at a concrete store: `"a"` with
frequency 9 wins the prefix window and is returned twice. -/
theorem claim_C9_duplicate_amended_witness :
    (findWords [("ab", 5), ("a", 9)] "a" 2).count "a" = 2 :=
  claim_C9_duplicate_amended [("ab", 5), ("a", 9)] "a" 9 2 (by decide)
    (by decide) (by decide) (by decide) (by decide)

/-! ## Claims about the smart-correction pipelines -/

/-- C10, counterexample to the claim as stated: the length-3 token `"mya"`
contains no `n` byte and no `ng` substring, so none of the four listed
scanning rules can fire, yet `NepaliRomanEngine::applySmartCorrection`
(one of the two cited functions) rewrites it — via its anusvara m→`*`
rule. -/
theorem claim_C10_counterexample :
    applySmartCorrectionNR [109, 121, 97] = [42, 121, 97] ∧
    applySmartCorrectionNR [109, 121, 97] ≠ [109, 121, 97] ∧
    ([109, 121, 97] : Str).count 110 = 0 := by
  have h : applySmartCorrectionNR [109, 121, 97] = [42, 121, 97] := by
    simp [applySmartCorrectionNR, endingStage, nkLoop, anusLoop, ngLoop,
      nTDLoop, findNg, findNgAux, replaceAt, getB, tolowerB, isVowelB]
  exact ⟨h, by rw [h]; decide, by decide⟩

/-- C10, amended: for every word of at most 3 bytes the guard
`word.length() > 3` skips all three word-ending rules in both engine
variants, so only the scanning stages remain — the n+k/g, ng+vowel,
n+T/D and n+ch scans in `Transliteration::applySmartCorrection`, plus the
m→`*` anusvara scan in `NepaliRomanEngine::applySmartCorrection` (which
can also rewrite such short words). -/
theorem claim_C10_short_words (w : Str) (h : w.length ≤ 3) :
    applySmartCorrection w = nTDLoop (ngLoop (nkLoop w 0) 0) 0 ∧
    applySmartCorrectionNR w =
      nTDLoop (ngLoop (anusLoop (nkLoop w 0)) 0) 0 := by
  have he : endingStage w = w := by
    rw [endingStage, if_neg (by omega)]
  rw [applySmartCorrection, applySmartCorrectionNR, he]
  exact ⟨rfl, rfl⟩

/-- Witness for C10 at the claim's own example: `"ma"` (2 bytes) passes
the ending rules untouched and, having no scan match either, comes out
unchanged — no `'a'` is appended despite the `"...ma"` ending. -/
theorem claim_C10_short_words_witness :
    ([109, 97] : Str).length ≤ 3 ∧
    applySmartCorrection [109, 97] =
      nTDLoop (ngLoop (nkLoop [109, 97] 0) 0) 0 ∧
    applySmartCorrection [109, 97] = [109, 97] := by
  refine ⟨by decide, (claim_C10_short_words [109, 97] (by decide)).1, ?_⟩
  simp [applySmartCorrection, endingStage, nkLoop, ngLoop, nTDLoop,
    findNg, findNgAux, replaceAt, getB, tolowerB, isVowelB]

/-- C8: the two variants' pipelines differ only in the anusvara scan:
whenever that scan is the identity on the post-n→ng word (its stage in
the NepaliRomanEngine pipeline), the two `applySmartCorrection`s agree;
and on `"mya"` — where `m` is followed by `y` at that stage — the results
differ (`"*ya"` versus `"mya"`). -/
theorem claim_C8_variants_anusvara :
    (∀ v : Str,
      anusLoop (nkLoop (endingStage v) 0) = nkLoop (endingStage v) 0 →
      applySmartCorrectionNR v = applySmartCorrection v) ∧
    applySmartCorrectionNR [109, 121, 97] ≠
      applySmartCorrection [109, 121, 97] := by
  constructor
  · intro v hv
    rw [applySmartCorrectionNR, applySmartCorrection, hv]
  · have h1 : applySmartCorrectionNR [109, 121, 97] = [42, 121, 97] := by
      simp [applySmartCorrectionNR, endingStage, nkLoop, anusLoop, ngLoop,
        nTDLoop, findNg, findNgAux, replaceAt, getB, tolowerB, isVowelB]
    have h2 : applySmartCorrection [109, 121, 97] = [109, 121, 97] := by
      simp [applySmartCorrection, endingStage, nkLoop, ngLoop,
        nTDLoop, findNg, findNgAux, replaceAt, getB, tolowerB, isVowelB]
    rw [h1, h2]
    decide

/-- Witness for C8's conditional part at `"kata"`: the anusvara scan does
not fire there, and the two variants agree. -/
theorem claim_C8_variants_anusvara_witness :
    anusLoop (nkLoop (endingStage [107, 97, 116, 97]) 0) =
      nkLoop (endingStage [107, 97, 116, 97]) 0 ∧
    applySmartCorrectionNR [107, 97, 116, 97] =
      applySmartCorrection [107, 97, 116, 97] := by
  have hv : anusLoop (nkLoop (endingStage [107, 97, 116, 97]) 0) =
      nkLoop (endingStage [107, 97, 116, 97]) 0 := by
    simp [endingStage, nkLoop, anusLoop, getB, tolowerB, isVowelB,
      replaceAt]
  exact ⟨hv, claim_C8_variants_anusvara.1 [107, 97, 116, 97] hv⟩

/-- `std::to_string(1)`, the only mask counter value reached below. -/
theorem natDigits_one : natDigits 1 = [49] := by decide

/-! ## Claims about the `transliterate` pipeline -/


set_option maxHeartbeats 1000000 in
set_option maxRecDepth 8192 in
/-- C5: `transliterate` is total by construction (every loop above is a
terminating function); the empty input yields the empty output for every
table and flag configuration; and an input with an unmatched `{` is
handled without failure by extending the span to the end of the input,
where `engTokens[mask] = token.substr(1, token.length() - 2)` drops the
span's final character: `"ab{cd"` comes out as `"abc"`, losing `d`. -/
theorem claim_C5_total_empty_unmatched_brace :
    (∀ (cm sw : List (Str × Str)) (opts : Opts),
      transliterate cm sw opts [] = []) ∧
    transliterate [] [] ⟨false, false, false, false⟩
      [97, 98, 123, 99, 100] = [97, 98, 99] := by
  constructor
  · intro cm sw opts
    simp [transliterate, preprocessInput, preInputAux, maskLoop, findByte,
      findByteAux, splitByte, splitByteAux, joinSpace]
  · have hg : greedyLoop [] ⟨false, false, false, false⟩
        [97, 98, 36, 45, 49, 45, 36] = [97, 98, 36, 45, 49, 45, 36] := by
      simp [greedyLoop, tryMatch, lookupStr, elseStep, getB, isdigitB,
        isalnumB]
    have hg2 : greedyLoop [] ⟨false, false, false, false⟩
        [36, 45, 49, 45, 36] = [36, 45, 49, 45, 36] := by
      simp [greedyLoop, tryMatch, lookupStr, elseStep, getB, isdigitB,
        isalnumB]
    have hps : processSub [] ⟨false, false, false, false⟩
        [97, 98, 36, 45, 49, 45, 36] = [97, 98, 36, 45, 49, 45, 36] := by
      simp only [processSub]
      rw [hg, if_neg (by decide)]
    have hps2 : processSub [] ⟨false, false, false, false⟩
        [36, 45, 49, 45, 36] = [36, 45, 49, 45, 36] := by
      simp only [processSub]
      rw [hg2, if_neg (by decide)]
    have hseg : transliterateSegment [] ⟨false, false, false, false⟩
        [97, 98, 36, 45, 49, 45, 36] = [97, 98, 36, 45, 49, 45, 36] := by
      simp only [transliterateSegment]
      rw [show (splitByte [97, 98, 36, 45, 49, 45, 36] 47).filter
          (fun s => s ≠ []) = [[97, 98, 36, 45, 49, 45, 36]] by decide]
      simp only [List.foldl_cons, List.foldl_nil, List.nil_append]
      exact hps
    have hseg2 : transliterateSegment [] ⟨false, false, false, false⟩
        [36, 45, 49, 45, 36] = [36, 45, 49, 45, 36] := by
      simp only [transliterateSegment]
      rw [show (splitByte [36, 45, 49, 45, 36] 47).filter
          (fun s => s ≠ []) = [[36, 45, 49, 45, 36]] by decide]
      simp only [List.foldl_cons, List.foldl_nil, List.nil_append]
      exact hps2
    have htok : transliterateToken [] [] ⟨false, false, false, false⟩
        [97, 98, 36, 45, 49, 45, 36] = [97, 98, 36, 45, 49, 45, 36] := by
      simp only [transliterateToken]
      rw [if_neg (by decide), if_neg (by decide), if_neg (by decide),
        show preprocess ⟨false, false, false, false⟩ []
          [97, 98, 36, 45, 49, 45, 36] = [97, 98, 36, 45, 49, 45, 36]
          from by decide]
      exact hseg
    have hpre : preprocessInput [] [97, 98, 123, 99, 100] =
        [97, 98, 123, 99, 100] := by decide
    have hmask : maskLoop [97, 98, 123, 99, 100] [] 1 0 =
        ([97, 98, 36, 45, 49, 45, 36],
         [([36, 45, 49, 45, 36], [99])]) := by
      simp [maskLoop, findByte, findByteAux, subStr, replaceAt, maskStr,
        natDigits_one]
    have hsplit : (splitByte [97, 98, 36, 45, 49, 45, 36] 32).filter
        (fun s => s ≠ []) = [[97, 98, 36, 45, 49, 45, 36]] := by decide
    have hrep : replaceAllFrom [36, 45, 49, 45, 36] [99]
        [97, 98, 36, 45, 49, 45, 36] 0 = [97, 98, 99] := by
      simp [replaceAllFrom, findSub, findSubAux, List.isPrefixOf,
        replaceAt]
    simp only [transliterate, hpre, hmask, hsplit, List.map_cons,
      List.map_nil, htok, joinSpace, List.foldl_cons, List.foldl_nil,
      hseg2, hrep]

theorem splitByteAux_no_delim (d : Nat) (l cur : Str) (h : ¬ d ∈ l) :
    splitByteAux d l cur = [cur.reverse ++ l] := by
  induction l generalizing cur with
  | nil => simp [splitByteAux]
  | cons c rest ih =>
    have hc : ¬ (c = d) := fun he => h (he ▸ List.mem_cons_self c rest)
    rw [splitByteAux, if_neg hc,
      ih (c :: cur) (fun hm => h (List.mem_cons_of_mem c hm))]
    simp

theorem splitByte_no_delim (l : Str) (d : Nat) (h : ¬ d ∈ l) :
    splitByte l d = [l] := by
  rw [splitByte, splitByteAux_no_delim d l [] h]
  simp

/-- C6: for a token that is a single `'/'`-free sub-segment of more than
one byte, `transliterateSegment` drops a trailing virama from the matched
output exactly when the sub-segment's last byte is not the escape `'\'`
(92); with a trailing `'\'` the virama is retained. -/
theorem claim_C6_halanta_suppression (cm : List (Str × Str)) (opts : Opts)
    (sub : Str) (hne : sub ≠ []) (hns : ¬ 47 ∈ sub)
    (hlen : 1 < sub.length) :
    transliterateSegment cm opts sub =
      if endsVirama (greedyLoop cm opts sub) = true ∧
         sub.getLast? ≠ some 92 then
        (greedyLoop cm opts sub).take ((greedyLoop cm opts sub).length - 3)
      else greedyLoop cm opts sub := by
  rw [transliterateSegment, splitByte_no_delim sub 47 hns]
  rw [show ([sub].filter (fun s => s ≠ [])) = [sub] by simp [hne]]
  simp only [List.foldl_cons, List.foldl_nil, List.nil_append]
  simp only [processSub]
  have hiff : (endsVirama (greedyLoop cm opts sub) = true ∧
      ¬ (sub ≠ [] ∧ sub.getLast? = some 92) ∧ 1 < sub.length) ↔
      (endsVirama (greedyLoop cm opts sub) = true ∧
        sub.getLast? ≠ some 92) := by
    constructor
    · rintro ⟨h1, h2, _⟩
      exact ⟨h1, fun he => h2 ⟨hne, he⟩⟩
    · rintro ⟨h1, h2⟩
      exact ⟨h1, fun hx => h2 hx.2, hlen⟩
  rw [if_congr hiff rfl rfl]

set_option maxHeartbeats 1000000 in
set_option maxRecDepth 8192 in
/-- Witness for C6 with the one-entry map `k ↦ क्`: the token `"kk"`
matches to two virama-terminated graphemes and the trailing virama is
dropped, yielding `क्क`. -/
theorem claim_C6_halanta_suppression_witness :
    (([107, 107] : Str) ≠ [] ∧ ¬ 47 ∈ ([107, 107] : Str) ∧
      1 < ([107, 107] : Str).length) ∧
    transliterateSegment [([107], [224, 164, 149, 224, 165, 141])]
        ⟨false, false, false, false⟩ [107, 107] =
      (if endsVirama (greedyLoop [([107], [224, 164, 149, 224, 165, 141])]
            ⟨false, false, false, false⟩ [107, 107]) = true ∧
          ([107, 107] : Str).getLast? ≠ some 92 then
        (greedyLoop [([107], [224, 164, 149, 224, 165, 141])]
            ⟨false, false, false, false⟩ [107, 107]).take
          ((greedyLoop [([107], [224, 164, 149, 224, 165, 141])]
            ⟨false, false, false, false⟩ [107, 107]).length - 3)
      else greedyLoop [([107], [224, 164, 149, 224, 165, 141])]
            ⟨false, false, false, false⟩ [107, 107]) ∧
    transliterateSegment [([107], [224, 164, 149, 224, 165, 141])]
        ⟨false, false, false, false⟩ [107, 107] =
      [224, 164, 149, 224, 165, 141, 224, 164, 149] := by
  have hg : greedyLoop [([107], [224, 164, 149, 224, 165, 141])]
      ⟨false, false, false, false⟩ [107, 107] =
      [224, 164, 149, 224, 165, 141, 224, 164, 149, 224, 165, 141] := by
    simp [greedyLoop, tryMatch, lookupStr, elseStep, getB, isdigitB,
      isalnumB]
  have happ := claim_C6_halanta_suppression
    [([107], [224, 164, 149, 224, 165, 141])] ⟨false, false, false, false⟩
    [107, 107] (by decide) (by decide) (by decide)
  refine ⟨⟨by decide, by decide, by decide⟩, happ, ?_⟩
  rw [happ, hg]
  decide

/-! ## The ng→ngg expansion: completeness of the while loop (C4) -/

/-- An occurrence of (case-sensitive) `"ng"` at index `p`. -/
def ngAt (w : Str) (p : Nat) : Prop :=
  getB w p = 110 ∧ getB w (p + 1) = 103

/-- An occurrence the ng→ngg loop rewrites: `"ng"` at index ≥ 2 whose
following byte exists and is a vowel (the guard of lines 600–609). -/
def ngQualifies (w : Str) (p : Nat) : Prop :=
  2 ≤ p ∧ ngAt w p ∧ p + 2 < w.length ∧ isVowelB (getB w (p + 2)) = true

instance (w : Str) (p : Nat) : Decidable (ngAt w p) := by
  unfold ngAt; infer_instance

instance (w : Str) (p : Nat) : Decidable (ngQualifies w p) := by
  unfold ngQualifies; infer_instance

theorem ngQualifies_lt {w : Str} {p : Nat} (h : ngQualifies w p) :
    p < w.length := by
  have := h.2.2.1; omega

theorem findNgAux_none {l : Str} {idx : Nat} (h : findNgAux l idx = none) :
    ∀ j, ¬ (l.getD j 0 = 110 ∧ l.getD (j + 1) 0 = 103) := by
  induction l generalizing idx with
  | nil => intro j; simp
  | cons a rest ih =>
    cases rest with
    | nil =>
      intro j hj
      match j, hj with
      | 0, hj => simp at hj
      | j + 1, hj => simp at hj
    | cons b rest' =>
      rw [findNgAux] at h
      split at h
      · exact absurd h (by simp)
      · next hc =>
        intro j hj
        match j, hj with
        | 0, hj => exact hc ⟨by simpa using hj.1, by simpa using hj.2⟩
        | j + 1, hj => exact ih h j ⟨by simpa using hj.1, by simpa using hj.2⟩

theorem findNg_none {w : Str} {pos : Nat} (h : findNg w pos = none) :
    ∀ q, pos ≤ q → ¬ ngAt w q := by
  intro q hq hng
  have hj := findNgAux_none h (q - pos)
  apply hj
  constructor
  · rw [show (w.drop pos).getD (q - pos) 0 = getB (w.drop pos) (q - pos)
        from rfl, getB_drop, show pos + (q - pos) = q by omega]
    exact hng.1
  · rw [show (w.drop pos).getD (q - pos + 1) 0 = getB (w.drop pos)
        (q - pos + 1) from rfl, getB_drop,
      show pos + (q - pos + 1) = q + 1 by omega]
    exact hng.2

theorem findNgAux_min {l : Str} {idx q : Nat} (h : findNgAux l idx = some q) :
    ∀ j, idx + j < q → ¬ (l.getD j 0 = 110 ∧ l.getD (j + 1) 0 = 103) := by
  induction l generalizing idx with
  | nil => intro j _; simp
  | cons a rest ih =>
    cases rest with
    | nil =>
      intro j hlt hj
      match j, hj with
      | 0, hj => simp at hj
      | j + 1, hj => simp at hj
    | cons b rest' =>
      rw [findNgAux] at h
      split at h
      · simp at h
        intro j hlt
        omega
      · next hc =>
        intro j hlt
        match j with
        | 0 => exact fun hj => hc ⟨by simpa using hj.1, by simpa using hj.2⟩
        | j + 1 =>
          intro hj
          exact ih h j (by omega) ⟨by simpa using hj.1, by simpa using hj.2⟩

theorem findNg_min {w : Str} {pos q : Nat} (h : findNg w pos = some q) :
    ∀ r, pos ≤ r → r < q → ¬ ngAt w r := by
  intro r hr hlt hng
  apply findNgAux_min h (r - pos) (by omega)
  constructor
  · rw [show (w.drop pos).getD (r - pos) 0 = getB (w.drop pos) (r - pos)
        from rfl, getB_drop, show pos + (r - pos) = r by omega]
    exact hng.1
  · rw [show (w.drop pos).getD (r - pos + 1) 0 = getB (w.drop pos)
        (r - pos + 1) from rfl, getB_drop,
      show pos + (r - pos + 1) = r + 1 by omega]
    exact hng.2

theorem getB_replaceAt_lt (w : Str) (q cnt i : Nat) (s : Str)
    (hi : i < q) (hq : q ≤ w.length) :
    getB (replaceAt w q cnt s) i = getB w i := by
  rw [replaceAt, List.append_assoc, getB, getB,
    List.getD_append _ _ 0 i (by rw [List.length_take]; omega)]
  simp [List.getD_eq_getElem?_getD, List.getElem?_take_of_lt hi]

theorem getB_replaceAt_mid (w : Str) (q cnt j : Nat) (s : Str)
    (hj : j < s.length) (hq : q ≤ w.length) :
    getB (replaceAt w q cnt s) (q + j) = s.getD j 0 := by
  rw [replaceAt, List.append_assoc, getB,
    List.getD_append_right _ _ 0 (q + j) (by rw [List.length_take]; omega)]
  rw [show q + j - (w.take q).length = j by rw [List.length_take]; omega]
  rw [List.getD_append _ _ 0 j hj]

theorem getB_replaceAt_after (w : Str) (q cnt j : Nat) (s : Str)
    (hq : q ≤ w.length) :
    getB (replaceAt w q cnt s) (q + s.length + j) = getB w (q + cnt + j) := by
  rw [replaceAt, List.append_assoc, getB,
    List.getD_append_right _ _ 0 (q + s.length + j)
      (by rw [List.length_take]; omega)]
  rw [show q + s.length + j - (w.take q).length = s.length + j by
    simp [List.length_take]; omega]
  rw [List.getD_append_right _ _ 0 (s.length + j) (by omega),
    show s.length + j - s.length = j from by omega]
  rw [show (w.drop (q + cnt)).getD j 0 = getB (w.drop (q + cnt)) j from rfl,
    getB_drop]

theorem ngLoop_eq_none {w : Str} {pos : Nat} (hf : findNg w pos = none) :
    ngLoop w pos = w := by
  rw [ngLoop.eq_def]
  split
  · rfl
  · next q heq => rw [hf] at heq; cases heq

theorem ngLoop_eq_some_pos {w : Str} {pos q : Nat}
    (hf : findNg w pos = some q)
    (hg : 2 ≤ q ∧ q + 2 < w.length ∧ isVowelB (getB w (q + 2)) = true) :
    ngLoop w pos = ngLoop (replaceAt w q 2 [110, 103, 103]) (q + 3) := by
  rw [ngLoop.eq_def]
  split
  · next heq => rw [hf] at heq; cases heq
  · next q' heq =>
    rw [hf] at heq
    injection heq with h
    subst h
    rw [if_pos hg]

theorem ngLoop_eq_some_neg {w : Str} {pos q : Nat}
    (hf : findNg w pos = some q)
    (hg : ¬ (2 ≤ q ∧ q + 2 < w.length ∧ isVowelB (getB w (q + 2)) = true)) :
    ngLoop w pos = ngLoop w (q + 1) := by
  rw [ngLoop.eq_def]
  split
  · next heq => rw [hf] at heq; cases heq
  · next q' heq =>
    rw [hf] at heq
    injection heq with h
    subst h
    rw [if_neg hg]

/-- Completeness of the ng→ngg while loop: after it runs, no occurrence
of `"ng"` at index ≥ 2 followed by a vowel remains anywhere in the word
(every such occurrence was expanded). -/
theorem ngLoop_no_qualifies :
    ∀ (w : Str) (pos : Nat), (∀ r, r < pos → ¬ ngQualifies w r) →
    ∀ p, ¬ ngQualifies (ngLoop w pos) p := by
  intro w pos
  induction w, pos using ngLoop.induct with
  | case1 w pos hf =>
    intro hI p
    rw [ngLoop_eq_none hf]
    intro hqual
    rcases Nat.lt_or_ge p pos with hp | hp
    · exact hI p hp hqual
    · exact findNg_none hf p hp hqual.2.1
  | case2 w pos q hf hg ih =>
    intro hI p
    rw [ngLoop_eq_some_pos hf hg]
    apply ih
    obtain ⟨h2q, hqlen, hvow⟩ := hg
    have hspec := findNg_spec hf
    have hge := findNg_ge hf
    have hmin := findNg_min hf
    have hqle : q ≤ w.length := by omega
    have hb0 : getB (replaceAt w q 2 [110, 103, 103]) q = 110 := by
      have := getB_replaceAt_mid w q 2 0 [110, 103, 103] (by decide) hqle
      simpa using this
    have hb1 : getB (replaceAt w q 2 [110, 103, 103]) (q + 1) = 103 := by
      have := getB_replaceAt_mid w q 2 1 [110, 103, 103] (by decide) hqle
      simpa using this
    have hb2 : getB (replaceAt w q 2 [110, 103, 103]) (q + 2) = 103 := by
      have := getB_replaceAt_mid w q 2 2 [110, 103, 103] (by decide) hqle
      simpa using this
    intro r hr hqual
    obtain ⟨hr2, hrng, hrlen, hrvow⟩ := hqual
    rcases Nat.lt_trichotomy r q with hlt | heq | hgt
    · rcases Nat.lt_or_ge (r + 1) q with h1 | h1
      · have hra : ngAt w r := by
          refine ⟨?_, ?_⟩
          · rw [← getB_replaceAt_lt w q 2 r [110, 103, 103] (by omega) hqle]
            exact hrng.1
          · rw [← getB_replaceAt_lt w q 2 (r + 1) [110, 103, 103] h1 hqle]
            exact hrng.2
        have hveq : getB (replaceAt w q 2 [110, 103, 103]) (r + 2) =
            getB w (r + 2) := by
          rcases Nat.lt_or_ge (r + 2) q with h2 | h2
          · exact getB_replaceAt_lt w q 2 (r + 2) [110, 103, 103] h2 hqle
          · have he : r + 2 = q := by omega
            rw [he, hb0, hspec.2.1]
        have hqw : ngQualifies w r :=
          ⟨hr2, hra, by omega, by rw [← hveq]; exact hrvow⟩
        rcases Nat.lt_or_ge r pos with hp | hp
        · exact hI r hp hqw
        · exact hmin r hp hlt hqw.2.1
      · have he : r + 1 = q := by omega
        obtain ⟨hrn1, hrn2⟩ := hrng
        rw [he, hb0] at hrn2
        omega
    · subst heq
      rw [hb2] at hrvow
      exact absurd hrvow (by decide)
    · have : r = q + 1 ∨ r = q + 2 := by omega
      rcases this with he | he <;> subst he
      · obtain ⟨hrn1, hrn2⟩ := hrng
        rw [hb1] at hrn1
        omega
      · obtain ⟨hrn1, hrn2⟩ := hrng
        rw [hb2] at hrn1
        omega
  | case3 w pos q hf hg ih =>
    intro hI p
    rw [ngLoop_eq_some_neg hf hg]
    apply ih
    have hmin := findNg_min hf
    have hge := findNg_ge hf
    intro r hr hqual
    rcases Nat.lt_or_ge r pos with hp | hp
    · exact hI r hp hqual
    · rcases Nat.lt_or_ge r q with hq | hq
      · exact hmin r hp hq hqual.2.1
      · have : r = q := by omega
        subst this
        exact hg ⟨hqual.1, hqual.2.2.1, hqual.2.2.2⟩

/-- A word with no qualifying occurrence passes the ng→ngg loop
unchanged (in particular occurrences of `"ng"` at index 0 or 1 are left
alone). -/
theorem ngLoop_id :
    ∀ (w : Str) (pos : Nat), (∀ p, ¬ ngQualifies w p) → ngLoop w pos = w := by
  intro w pos
  induction w, pos using ngLoop.induct with
  | case1 w pos hf =>
    intro _
    exact ngLoop_eq_none hf
  | case2 w pos q hf hg ih =>
    intro hno
    exact absurd ⟨hg.1, (findNg_spec hf).2, hg.2.1, hg.2.2⟩ (hno q)
  | case3 w pos q hf hg ih =>
    intro hno
    rw [ngLoop_eq_some_neg hf hg]
    exact ih hno

/-- C4, counterexample to the claim as stated: in `"aanga"` the single
`"ng"` occurrence starts at index 2 and its following vowel `a` (97) IS
the word's last byte (`pos_ng + 2 < word.length()` only requires the
vowel to exist), yet the loop expands it to `"ngg"` — the claim's "the
vowel not to be the last character" restriction is not in the code. -/
theorem claim_C4_counterexample :
    ngLoop [97, 97, 110, 103, 97] 0 = [97, 97, 110, 103, 103, 97] ∧
    ([97, 97, 110, 103, 97] : Str).length = 5 ∧
    isVowelB (getB [97, 97, 110, 103, 97] 4) = true := by
  refine ⟨?_, by decide, by decide⟩
  simp [ngLoop, findNg, findNgAux, replaceAt, getB, isVowelB, tolowerB]

/-- C4, amended: the ng→ngg while loop of `applySmartCorrection` expands
every occurrence of `"ng"` followed by a vowel that starts at index ≥ 2 —
including occurrences whose vowel is the word's last character — and only
those: after the loop no such occurrence remains, and a word without such
an occurrence (e.g. with `"ng"` only at index 0 or 1) is returned
unchanged. -/
theorem claim_C4_ng_expansion (w : Str) :
    applySmartCorrection w =
      nTDLoop (ngLoop (nkLoop (endingStage w) 0) 0) 0 ∧
    (∀ p, ¬ ngQualifies (ngLoop w 0) p) ∧
    ((∀ p, ¬ ngQualifies w p) → ngLoop w 0 = w) := by
  refine ⟨rfl, ?_, ?_⟩
  · exact ngLoop_no_qualifies w 0 (fun r hr => absurd hr (by omega))
  · exact fun hno => ngLoop_id w 0 hno

/-- Witness for C4 at `"xnga"`: its `"ng"` occurrence starts at index 1,
so nothing qualifies and the loop leaves the word unchanged; the
postcondition holds for the loop's output as well. -/
theorem claim_C4_ng_expansion_witness :
    (∀ p, ¬ ngQualifies [120, 110, 103, 97] p) ∧
    ngLoop [120, 110, 103, 97] 0 = [120, 110, 103, 97] ∧
    applySmartCorrection [120, 110, 103, 97] =
      nTDLoop (ngLoop (nkLoop (endingStage [120, 110, 103, 97]) 0) 0) 0 := by
  have hno : ∀ p, ¬ ngQualifies [120, 110, 103, 97] p := by
    intro p hp
    have hlt : p < 4 := by simpa using ngQualifies_lt hp
    exact (by decide : ∀ p < 4, ¬ ngQualifies [120, 110, 103, 97] p) p hlt hp
  exact ⟨hno, (claim_C4_ng_expansion [120, 110, 103, 97]).2.2 hno,
    (claim_C4_ng_expansion [120, 110, 103, 97]).1⟩

/-! ## Override passthrough (C1): infrastructure -/

theorem findByteAux_none_of_not_mem {c : Nat} {l : Str} (idx : Nat)
    (h : ¬ c ∈ l) : findByteAux c l idx = none := by
  induction l generalizing idx with
  | nil => rfl
  | cons x xs ih =>
    rw [findByteAux, if_neg (fun he => h (by
      rw [← he]; exact List.mem_cons_self x xs))]
    exact ih (idx + 1) (fun hm => h (List.mem_cons_of_mem x hm))

theorem maskLoop_eq_none {processed : Str} {tokens : List (Str × Str)}
    {cnt endIndex : Nat} (hf : findByte processed 123 endIndex = none) :
    maskLoop processed tokens cnt endIndex = (processed, tokens) := by
  rw [maskLoop.eq_def]
  split
  · rfl
  · next b heq => rw [hf] at heq; cases heq

theorem lookupStr_none_high {cm : List (Str × Str)}
    (hcm : ∀ kv ∈ cm, ∀ c ∈ kv.1, c < 128) {part : Str} {c0 : Nat}
    (hhd : part.head? = some c0) (hc0 : 128 ≤ c0) :
    lookupStr cm part = none := by
  induction cm with
  | nil => rfl
  | cons kv rest ih =>
    rw [lookupStr]
    rw [if_neg]
    · exact ih (fun kv' hm => hcm kv' (List.mem_cons_of_mem kv hm))
    · intro he
      subst he
      have : c0 ∈ kv.1 := List.mem_of_mem_head? hhd
      have := hcm kv (List.mem_cons_self kv rest) c0 this
      omega

theorem tryMatch_high {cm : List (Str × Str)} {opts : Opts} {c0 : Nat}
    {rest : Str} (hcm : ∀ kv ∈ cm, ∀ c ∈ kv.1, c < 128)
    (hc0 : 128 ≤ c0) :
    ∀ i, 1 ≤ i → i ≤ (c0 :: rest).length →
      tryMatch cm opts (c0 :: rest) i =
        (if opts.symbols = false then some (([c0] : Str), 1) else none) := by
  intro i
  induction i with
  | zero => omega
  | succ j ih =>
    intro _ hle
    simp only [tryMatch]
    cases j with
    | zero =>
      have hd : isdigitB c0 = false := by
        simp [isdigitB]; omega
      have ha : isalnumB c0 = false := by
        simp [isalnumB, isdigitB]; omega
      simp only [List.take_succ_cons, List.take_zero]
      rw [if_neg (by simp [getB, hd])]
      by_cases hs : opts.symbols = false
      · rw [if_pos ⟨by simp, by simp [getB, ha], hs⟩, if_pos hs]
      · rw [if_neg (fun hcond => hs hcond.2.2), if_neg hs]
        rw [lookupStr_none_high hcm (show ([c0] : Str).head? = some c0
          from rfl) hc0]
        rfl
    | succ k =>
      have hlen : (List.take (k + 1 + 1) (c0 :: rest)).length = k + 2 := by
        rw [List.length_take]
        simp at hle ⊢
        omega
      rw [if_neg (fun hcond => by
        have := hcond.1
        rw [hlen] at this
        omega)]
      rw [if_neg (fun hcond => by
        have := hcond.1
        rw [hlen] at this
        omega)]
      have hhd : (List.take (k + 1 + 1) (c0 :: rest)).head? = some c0 := by
        simp [List.take_succ_cons]
      rw [lookupStr_none_high hcm hhd hc0]
      exact ih (by omega) (by omega)

theorem greedyLoop_eq_none {cm : List (Str × Str)} {opts : Opts}
    {rem : Str} (hne : rem ≠ [])
    (hm : tryMatch cm opts rem rem.length = none) :
    greedyLoop cm opts rem =
      elseStep cm opts rem ++ greedyLoop cm opts (rem.drop 1) := by
  rw [greedyLoop.eq_def, dif_neg hne]
  split
  · next m i heq => rw [hm] at heq; cases heq
  · rfl

theorem greedyLoop_eq_some {cm : List (Str × Str)} {opts : Opts}
    {rem m : Str} {i : Nat} (hne : rem ≠ [])
    (hm : tryMatch cm opts rem rem.length = some (m, i)) :
    greedyLoop cm opts rem =
      (if m ≠ [] then m ++ greedyLoop cm opts (rem.drop i)
       else elseStep cm opts (rem.drop i) ++
         greedyLoop cm opts ((rem.drop i).drop 1)) := by
  rw [greedyLoop.eq_def, dif_neg hne]
  split
  · next m' i' heq =>
    rw [hm] at heq
    injection heq with h
    injection h with h1 h2
    subst h1
    subst h2
    rfl
  · next heq => rw [hm] at heq; cases heq

theorem greedy_high {cm : List (Str × Str)} {opts : Opts}
    (hcm : ∀ kv ∈ cm, ∀ c ∈ kv.1, c < 128) :
    ∀ (n : Nat) (rem : Str), rem.length ≤ n → (∀ c ∈ rem, 128 ≤ c) →
    greedyLoop cm opts rem = rem := by
  intro n
  induction n with
  | zero =>
    intro rem hlen _
    have : rem = [] := List.eq_nil_of_length_eq_zero (by omega)
    subst this
    rw [greedyLoop.eq_def]
    exact dif_pos rfl
  | succ n ih =>
    intro rem hlen hrem
    rcases eq_or_ne rem [] with rfl | hne
    · rw [greedyLoop.eq_def]
      exact dif_pos rfl
    · obtain ⟨c0, rest, rfl⟩ := List.exists_cons_of_ne_nil hne
      have hc0 : 128 ≤ c0 := hrem c0 (List.mem_cons_self c0 rest)
      have hd : isdigitB c0 = false := by simp [isdigitB]; omega
      have ha : isalnumB c0 = false := by simp [isalnumB, isdigitB]; omega
      have htm := @tryMatch_high cm opts c0 rest hcm hc0
        (c0 :: rest).length (by simp) le_rfl
      have hrest : ∀ c ∈ rest, 128 ≤ c :=
        fun c hc => hrem c (List.mem_cons_of_mem c0 hc)
      by_cases hs : opts.symbols = false
      · rw [if_pos hs] at htm
        rw [greedyLoop_eq_some hne htm,
          if_pos (by simp : ([c0] : Str) ≠ [])]
        rw [show (c0 :: rest).drop 1 = rest from rfl,
          ih rest (by simp at hlen; omega) hrest]
        rfl
      · rw [if_neg hs] at htm
        rw [greedyLoop_eq_none hne htm]
        have hel : elseStep cm opts (c0 :: rest) = [c0] := by
          simp only [elseStep]
          rw [show getB (c0 :: rest) 0 = c0 from rfl]
          rw [if_neg (fun hcond => by rw [hd] at hcond; simp at hcond)]
          rw [if_neg (fun hcond => hs hcond.2)]
          rw [lookupStr_none_high hcm (show ([c0] : Str).head? = some c0
            from rfl) hc0]
        rw [hel, show (c0 :: rest).drop 1 = rest from rfl,
          ih rest (by simp at hlen; omega) hrest]
        rfl

theorem transliterateSegment_high {cm : List (Str × Str)} {opts : Opts}
    {v : Str} (hcm : ∀ kv ∈ cm, ∀ c ∈ kv.1, c < 128)
    (hv : ∀ c ∈ v, 128 ≤ c) (hvir : endsVirama v = false) :
    transliterateSegment cm opts v = v := by
  rcases eq_or_ne v [] with rfl | hne
  · rfl
  · have h47 : ¬ (47 : Nat) ∈ v := fun hm => by have := hv 47 hm; omega
    rw [transliterateSegment, splitByte_no_delim v 47 h47,
      show ([v].filter (fun s => s ≠ [])) = [v] by simp [hne]]
    simp only [List.foldl_cons, List.foldl_nil, List.nil_append]
    simp only [processSub]
    rw [greedy_high hcm v.length v le_rfl hv]
    rw [if_neg (fun hcond => absurd hcond.1 (by simp [hvir]))]

theorem preInputAux_alnum (cm : List (Str × Str)) :
    ∀ (l : Str) (prev : Option Nat), (∀ c ∈ l, isalnumB c = true) →
    preInputAux cm prev l = l := by
  intro l
  induction l with
  | nil => intro prev _; rfl
  | cons c rest ih =>
    intro prev h
    have hc : isalnumB c = true := h c (List.mem_cons_self c rest)
    have h42 : ¬ (c = 42) := fun he => by
      rw [he] at hc
      exact absurd hc (by decide)
    simp only [preInputAux]
    rw [if_neg h42, if_neg (fun hcond => by
      have := hcond.2.2
      rw [hc] at this
      cases this)]
    rw [ih (some c) (fun d hd => h d (List.mem_cons_of_mem c hd))]

set_option maxHeartbeats 1000000 in
set_option maxRecDepth 8192 in
/-- C1, counterexample to the claim as stated: with the override
`"kma" ↦ "क्"` loaded and auto-correct enabled, `transliterate "kma"`
does not return the override value — the override result passes through
`transliterateSegment`, whose trailing-virama suppression strips the
final virama, yielding `"क"`. -/
theorem claim_C1_counterexample :
    lookupStr [([107, 109, 97], [224, 164, 149, 224, 165, 141])]
      [107, 109, 97] = some [224, 164, 149, 224, 165, 141] ∧
    transliterate [] [([107, 109, 97], [224, 164, 149, 224, 165, 141])]
      ⟨true, true, false, false⟩ [107, 109, 97] = [224, 164, 149] ∧
    ([224, 164, 149] : Str) ≠ [224, 164, 149, 224, 165, 141] := by
  refine ⟨rfl, ?_, by decide⟩
  have hg : greedyLoop [] ⟨true, true, false, false⟩
      [224, 164, 149, 224, 165, 141] = [224, 164, 149, 224, 165, 141] := by
    simp [greedyLoop, tryMatch, lookupStr, elseStep, getB, isdigitB,
      isalnumB]
  have hseg : transliterateSegment [] ⟨true, true, false, false⟩
      [224, 164, 149, 224, 165, 141] = [224, 164, 149] := by
    simp only [transliterateSegment]
    rw [show (splitByte [224, 164, 149, 224, 165, 141] 47).filter
        (fun s => s ≠ []) = [[224, 164, 149, 224, 165, 141]] by decide]
    simp only [List.foldl_cons, List.foldl_nil, List.nil_append]
    simp only [processSub]
    rw [hg, if_pos (by decide)]
    decide
  have htok : transliterateToken []
      [([107, 109, 97], [224, 164, 149, 224, 165, 141])]
      ⟨true, true, false, false⟩ [107, 109, 97] = [224, 164, 149] := by
    simp only [transliterateToken]
    rw [if_neg (by decide), if_neg (by decide), if_neg (by decide),
      show preprocess ⟨true, true, false, false⟩
        [([107, 109, 97], [224, 164, 149, 224, 165, 141])]
        [107, 109, 97] = [224, 164, 149, 224, 165, 141] from by decide]
    exact hseg
  have hpre : preprocessInput [] [107, 109, 97] = [107, 109, 97] := by
    decide
  have hmask : maskLoop [107, 109, 97] [] 1 0 = ([107, 109, 97], []) :=
    maskLoop_eq_none (by decide)
  have hsplit : (splitByte [107, 109, 97] 32).filter (fun s => s ≠ []) =
      [[107, 109, 97]] := by decide
  simp only [transliterate, hpre, hmask, hsplit, List.map_cons,
    List.map_nil, htok, joinSpace, List.foldl_nil]

/-- C1, amended: the override short-circuits both correction pipelines,
but its value still runs through `transliterateSegment`.  For a plain
alphabetic override key of at least two bytes, any `charMap` whose keys
are ASCII, and an override value made of non-ASCII (UTF-8 continuation
and lead) bytes that does not end in the virama grapheme, `transliterate`
returns exactly the override value, for every setting of the remaining
flags (in particular with smart correction on or off). -/
theorem claim_C1_override_amended (cm sw : List (Str × Str)) (opts : Opts)
    (w v : Str) (hac : opts.autoCorrect = true)
    (hlook : lookupStr sw w = some v) (hwlen : 2 ≤ w.length)
    (hwl : ∀ c ∈ w, (65 ≤ c ∧ c ≤ 90) ∨ (97 ≤ c ∧ c ≤ 122))
    (hcm : ∀ kv ∈ cm, ∀ c ∈ kv.1, c < 128)
    (hv : ∀ c ∈ v, 128 ≤ c) (hvir : endsVirama v = false) :
    transliterate cm sw opts w = v := by
  have hwalnum : ∀ c ∈ w, isalnumB c = true := fun c hc => by
    rcases hwl c hc with h | h <;> simp [isalnumB, isdigitB] <;> omega
  have hw123 : ¬ (123 : Nat) ∈ w := fun hm => by
    rcases hwl 123 hm with h | h <;> omega
  have hw32 : ¬ (32 : Nat) ∈ w := fun hm => by
    rcases hwl 32 hm with h | h <;> omega
  have hwne : w ≠ [] := by
    intro he
    rw [he] at hwlen
    simp at hwlen
  have haac : applyAutoCorrection sw w = v := by
    simp only [applyAutoCorrection, hlook]
  have hvw : v ≠ w := by
    intro he
    obtain ⟨c0, rest, hw⟩ := List.exists_cons_of_ne_nil hwne
    have hc0w := hwl c0 (by rw [hw]; exact List.mem_cons_self c0 rest)
    have hc0v := hv c0 (by rw [he, hw]; exact List.mem_cons_self c0 rest)
    rcases hc0w with h | h <;> omega
  have hpre : preprocessInput cm w = w := preInputAux_alnum cm w none hwalnum
  have hmask : maskLoop w [] 1 0 = (w, []) := by
    apply maskLoop_eq_none
    rw [findByte, List.drop_zero]
    exact findByteAux_none_of_not_mem 0 hw123
  have hsplit : (splitByte w 32).filter (fun s => s ≠ []) = [w] := by
    rw [splitByte_no_delim w 32 hw32]
    simp [hwne]
  have hprep : preprocess opts sw w = v := by
    rw [preprocess, if_pos ⟨hac, by rw [haac]; exact hvw⟩]
    exact haac
  have htok : transliterateToken cm sw opts w = v := by
    simp only [transliterateToken]
    rw [if_neg (fun hcond => by have := hcond.1; omega),
      if_neg (fun hcond => by have := hcond.1; omega),
      if_neg (fun hcond => by have := hcond.1; omega),
      hprep]
    exact transliterateSegment_high hcm hv hvir
  simp only [transliterate, hpre, hmask, hsplit, List.map_cons,
    List.map_nil, htok, joinSpace, List.foldl_nil]

/-- Witness for C1's amended statement: override `"kma" ↦ "न"` (a value
not ending in the virama) survives the pipeline exactly, with smart
correction enabled. -/
theorem claim_C1_override_amended_witness :
    lookupStr [([107, 109, 97], [224, 164, 168])] [107, 109, 97] =
      some [224, 164, 168] ∧
    transliterate [] [([107, 109, 97], [224, 164, 168])]
      ⟨true, true, false, false⟩ [107, 109, 97] = [224, 164, 168] :=
  ⟨rfl, claim_C1_override_amended [] [([107, 109, 97], [224, 164, 168])]
    ⟨true, true, false, false⟩ [107, 109, 97] [224, 164, 168]
    rfl rfl (by decide) (by decide) (by simp) (by decide) (by decide)⟩

/-! ## Literal-span preservation (C7): infrastructure -/

theorem maskLoop_eq_some {processed : Str} {tokens : List (Str × Str)}
    {cnt endIndex b : Nat} (hf : findByte processed 123 endIndex = some b) :
    maskLoop processed tokens cnt endIndex =
      (let e := match findByte processed 125 (b + 1) with
        | none => processed.length - 1
        | some e' => e'
       let token := subStr processed b (e - b + 1)
       let mask := maskStr cnt
       let content := subStr token 1 (token.length - 2)
       maskLoop (replaceAt processed b token.length mask)
         (tokens ++ [(mask, content)]) (cnt + 1) (b + mask.length)) := by
  rw [maskLoop.eq_def]
  split
  · next heq => rw [hf] at heq; cases heq
  · next b' heq =>
    rw [hf] at heq
    injection heq with h
    subst h
    rfl

theorem findByteAux_append_first {c : Nat} {s rest : Str} (h : ¬ c ∈ s) :
    ∀ idx, findByteAux c (s ++ c :: rest) idx = some (idx + s.length) := by
  induction s with
  | nil => intro idx; simp [findByteAux]
  | cons x xs ih =>
    intro idx
    rw [List.cons_append, findByteAux,
      if_neg (fun he => h (by rw [← he]; exact List.mem_cons_self x xs)),
      ih (fun hm => h (List.mem_cons_of_mem x hm)) (idx + 1)]
    congr 1
    simp
    omega

theorem findSubAux_none_head {c0 : Nat} {pat l : Str} (h : ¬ c0 ∈ l) :
    ∀ idx, findSubAux (c0 :: pat) l idx = none := by
  induction l with
  | nil =>
    intro idx
    rw [findSubAux]
    split
    · next hpre => simp [List.isPrefixOf_iff_prefix] at hpre
    · rfl
  | cons x xs ih =>
    intro idx
    rw [findSubAux]
    split
    · next hpre =>
      rw [List.isPrefixOf_iff_prefix] at hpre
      obtain ⟨t, ht⟩ := hpre
      rw [List.cons_append] at ht
      injection ht with h1 h2
      exact absurd (by rw [h1]; exact List.mem_cons_self x xs : c0 ∈ x :: xs) h
    · exact ih (fun hm => h (List.mem_cons_of_mem x hm)) (idx + 1)

theorem preInputAux_append_alnum (cm : List (Str × Str)) :
    ∀ (s : Str), (∀ c ∈ s, isalnumB c = true) →
    ∀ (prev : Option Nat) (rest : Str),
    preInputAux cm prev (s ++ rest) =
      s ++ preInputAux cm (s.foldl (fun _ c => some c) prev) rest := by
  intro s
  induction s with
  | nil => intro _ prev rest; rfl
  | cons c s' ih =>
    intro h prev rest
    have hc : isalnumB c = true := h c (List.mem_cons_self c s')
    have h42 : ¬ (c = 42) := fun he => by
      rw [he] at hc
      exact absurd hc (by decide)
    rw [List.cons_append]
    simp only [preInputAux]
    rw [if_neg h42, if_neg (fun hcond => by
      have := hcond.2.2
      rw [hc] at this
      cases this)]
    rw [ih (fun d hd => h d (List.mem_cons_of_mem c hd)) (some c) rest]
    rfl

theorem replaceAllFrom_eq_stop {pat repl w : Str} {pos : Nat}
    (hp : pat ≠ []) (hf : findSub w pat pos = none) :
    replaceAllFrom pat repl w pos = w := by
  rw [replaceAllFrom.eq_def, dif_neg hp]
  split
  · rfl
  · next q heq => rw [hf] at heq; cases heq

theorem replaceAllFrom_eq_step {pat repl w : Str} {pos q : Nat}
    (hp : pat ≠ []) (hf : findSub w pat pos = some q) :
    replaceAllFrom pat repl w pos =
      replaceAllFrom pat repl (replaceAt w q pat.length repl)
        (q + repl.length) := by
  rw [replaceAllFrom.eq_def, dif_neg hp]
  split
  · next heq => rw [hf] at heq; cases heq
  · next q' heq =>
    rw [hf] at heq
    injection heq with h
    subst h
    rfl


set_option maxHeartbeats 2000000 in
set_option maxRecDepth 8192 in
/-- For an input `namaste {s} namaste` whose span content `s` is uppercase
ASCII, the masking loop replaces the brace span (braces included) by the
first positional mask and records the content `s` verbatim. -/
theorem maskLoop_brace_span (s : Str) (hs : ∀ c ∈ s, 65 ≤ c ∧ c ≤ 90) :
    maskLoop ([110, 97, 109, 97, 115, 116, 101, 32, 123] ++ s ++
        [125, 32, 110, 97, 109, 97, 115, 116, 101]) [] 1 0 =
      ([110, 97, 109, 97, 115, 116, 101, 32, 36, 45, 49, 45, 36,
        32, 110, 97, 109, 97, 115, 116, 101],
       [([36, 45, 49, 45, 36], s)]) := by
  have h125 : ¬ (125 : Nat) ∈ s := fun hm => by
    have := hs 125 hm; omega
  -- find the opening brace at index 8
  have hfind1 : findByte ([110, 97, 109, 97, 115, 116, 101, 32, 123] ++ s ++
      [125, 32, 110, 97, 109, 97, 115, 116, 101]) 123 0 = some 8 := by
    rw [findByte, List.drop_zero, List.append_assoc]
    simp [findByteAux]
  -- find the closing brace at index 9 + |s|
  have hdrop9 : ([110, 97, 109, 97, 115, 116, 101, 32, 123] ++ s ++
      [125, 32, 110, 97, 109, 97, 115, 116, 101]).drop 9 =
      s ++ [125, 32, 110, 97, 109, 97, 115, 116, 101] := by
    rw [List.append_assoc]
    exact List.drop_left' (by simp)
  have hfind2 : findByte ([110, 97, 109, 97, 115, 116, 101, 32, 123] ++ s ++
      [125, 32, 110, 97, 109, 97, 115, 116, 101]) 125 9 =
      some (9 + s.length) := by
    rw [findByte, hdrop9,
      show (s ++ [125, 32, 110, 97, 109, 97, 115, 116, 101] : Str) =
        s ++ 125 :: [32, 110, 97, 109, 97, 115, 116, 101] from rfl,
      findByteAux_append_first h125 9]
  rw [maskLoop_eq_some hfind1, hfind2]
  simp only []
  rw [show 9 + List.length s - 8 + 1 = s.length + 2 from by omega]
  have hd8 : ([110, 97, 109, 97, 115, 116, 101, 32, 123] ++ s ++
      [125, 32, 110, 97, 109, 97, 115, 116, 101]).drop 8 =
      123 :: (s ++ [125, 32, 110, 97, 109, 97, 115, 116, 101]) := by
    simp
  have htok : subStr ([110, 97, 109, 97, 115, 116, 101, 32, 123] ++ s ++
      [125, 32, 110, 97, 109, 97, 115, 116, 101]) 8 (s.length + 2) =
      123 :: (s ++ [125]) := by
    rw [subStr, hd8]
    rw [show s.length + 2 = (s.length + 1) + 1 from rfl,
      List.take_succ_cons]
    rw [show (s ++ [125, 32, 110, 97, 109, 97, 115, 116, 101] : Str) =
      s ++ (125 :: [32, 110, 97, 109, 97, 115, 116, 101]) from rfl]
    rw [show s.length + 1 = s.length + 1 from rfl]
    rw [List.take_append 1]
    simp
  rw [htok]
  have hmask1 : maskStr 1 = [36, 45, 49, 45, 36] := by
    rw [maskStr, natDigits_one]
    rfl
  have hlen : (123 :: (s ++ [125])).length = s.length + 2 := by simp
  have hcont : subStr (123 :: (s ++ [125])) 1 (s.length + 2 - 2) = s := by
    rw [subStr, show s.length + 2 - 2 = s.length from by omega]
    simp only [List.drop_succ_cons, List.drop_zero]
    exact List.take_left s [125]
  have hrepl : replaceAt ([110, 97, 109, 97, 115, 116, 101, 32, 123] ++ s ++
      [125, 32, 110, 97, 109, 97, 115, 116, 101]) 8 (s.length + 2)
      [36, 45, 49, 45, 36] =
      [110, 97, 109, 97, 115, 116, 101, 32, 36, 45, 49, 45, 36,
       32, 110, 97, 109, 97, 115, 116, 101] := by
    rw [replaceAt]
    have ht8 : (([110, 97, 109, 97, 115, 116, 101, 32, 123] ++ s ++
        [125, 32, 110, 97, 109, 97, 115, 116, 101] : Str)).take 8 =
        [110, 97, 109, 97, 115, 116, 101, 32] := by
      simp
    have hd10 : (([110, 97, 109, 97, 115, 116, 101, 32, 123] ++ s ++
        [125, 32, 110, 97, 109, 97, 115, 116, 101] : Str)).drop (8 + (s.length + 2)) =
        [32, 110, 97, 109, 97, 115, 116, 101] := by
      rw [show ([110, 97, 109, 97, 115, 116, 101, 32, 123] ++ s ++
          [125, 32, 110, 97, 109, 97, 115, 116, 101] : Str) =
        ([110, 97, 109, 97, 115, 116, 101, 32, 123] ++ s) ++
          (125 :: [32, 110, 97, 109, 97, 115, 116, 101]) from by
          rw [List.append_assoc]]
      rw [show 8 + (s.length + 2) =
        ([110, 97, 109, 97, 115, 116, 101, 32, 123] ++ s : Str).length + 1 from by
        simp; omega]
      rw [List.drop_append 1]
      simp
    rw [ht8, hd10]
    rfl
  rw [hlen, hcont, hmask1, hrepl]
  rw [maskLoop_eq_none (by decide)]
  simp

/-- The Devanagari bytes of `नमस्ते`, the `charMap` value for the key
`"namaste"` in the literal-span example. -/
def namasteDev : Str :=
  [224, 164, 168, 224, 164, 174, 224, 164, 184, 224, 165, 141,
   224, 164, 164, 224, 165, 135]

set_option maxHeartbeats 2000000 in
set_option maxRecDepth 8192 in
/-- C7: a brace-delimited span's content is held verbatim through the
pipeline: for every uppercase-ASCII literal `s`, transliterating
`"namaste {" + s + "} namaste"` (with the single-entry table
`namaste ↦ नमस्ते` and all flags off) yields `नमस्ते ␣ s ␣ नमस्ते` — the
surrounding text is transliterated while `s` appears untransliterated
between the spaces, restored from the positional mask. -/
theorem claim_C7_literal_span (s : Str) (hs : ∀ c ∈ s, 65 ≤ c ∧ c ≤ 90) :
    transliterate [([110, 97, 109, 97, 115, 116, 101], namasteDev)] []
        ⟨false, false, false, false⟩
        ([110, 97, 109, 97, 115, 116, 101, 32, 123] ++ s ++
          [125, 32, 110, 97, 109, 97, 115, 116, 101]) =
      namasteDev ++ [32] ++ s ++ [32] ++ namasteDev := by
  have hsAl : ∀ c ∈ s, isalnumB c = true := fun c hc => by
    have := hs c hc
    simp [isalnumB, isdigitB]
    omega
  -- Stage 1: preprocessInput is the identity on this input.
  have hpre : preprocessInput [([110, 97, 109, 97, 115, 116, 101],
      namasteDev)]
      ([110, 97, 109, 97, 115, 116, 101, 32, 123] ++ s ++
        [125, 32, 110, 97, 109, 97, 115, 116, 101]) =
      [110, 97, 109, 97, 115, 116, 101, 32, 123] ++ s ++
        [125, 32, 110, 97, 109, 97, 115, 116, 101] := by
    rw [preprocessInput]
    rw [show ([110, 97, 109, 97, 115, 116, 101, 32, 123] ++ s ++
        [125, 32, 110, 97, 109, 97, 115, 116, 101] : Str) =
      [110, 97, 109, 97, 115, 116, 101, 32, 123] ++
        (s ++ [125, 32, 110, 97, 109, 97, 115, 116, 101]) from by
      rw [List.append_assoc]]
    have hA : preInputAux [([110, 97, 109, 97, 115, 116, 101], namasteDev)]
        none ([110, 97, 109, 97, 115, 116, 101, 32, 123] ++
          (s ++ [125, 32, 110, 97, 109, 97, 115, 116, 101])) =
        [110, 97, 109, 97, 115, 116, 101, 32, 123] ++
          preInputAux [([110, 97, 109, 97, 115, 116, 101], namasteDev)]
            (some 123)
            (s ++ [125, 32, 110, 97, 109, 97, 115, 116, 101]) := by
      simp [preInputAux, prevNonSpace, lookupStr, isalnumB, isdigitB]
    rw [hA, preInputAux_append_alnum
      [([110, 97, 109, 97, 115, 116, 101], namasteDev)] s hsAl (some 123)
      [125, 32, 110, 97, 109, 97, 115, 116, 101]]
    have hB : ∀ prev, preInputAux
        [([110, 97, 109, 97, 115, 116, 101], namasteDev)] prev
        [125, 32, 110, 97, 109, 97, 115, 116, 101] =
        [125, 32, 110, 97, 109, 97, 115, 116, 101] := by
      intro prev
      simp [preInputAux, prevNonSpace, lookupStr, isalnumB, isdigitB]
    rw [hB]
  -- Stage 2: the masking loop captures the span verbatim.
  have hmask : maskLoop ([110, 97, 109, 97, 115, 116, 101, 32, 123] ++ s ++
        [125, 32, 110, 97, 109, 97, 115, 116, 101]) [] 1 0 =
      ([110, 97, 109, 97, 115, 116, 101, 32, 36, 45, 49, 45, 36,
        32, 110, 97, 109, 97, 115, 116, 101],
       [([36, 45, 49, 45, 36], s)]) := maskLoop_brace_span s hs
  -- Stage 3: the masked string tokenizes into three tokens.
  have hsplit : (splitByte [110, 97, 109, 97, 115, 116, 101, 32, 36, 45,
      49, 45, 36, 32, 110, 97, 109, 97, 115, 116, 101] 32).filter
      (fun t => t ≠ []) =
      [[110, 97, 109, 97, 115, 116, 101], [36, 45, 49, 45, 36],
       [110, 97, 109, 97, 115, 116, 101]] := by decide
  -- Stage 4: the surrounding `namaste` tokens transliterate.
  have hgN : greedyLoop [([110, 97, 109, 97, 115, 116, 101], namasteDev)]
      ⟨false, false, false, false⟩ [110, 97, 109, 97, 115, 116, 101] =
      namasteDev := by
    simp [greedyLoop, tryMatch, lookupStr, elseStep, getB, isdigitB,
      isalnumB, namasteDev]
  have hpsN : processSub [([110, 97, 109, 97, 115, 116, 101], namasteDev)]
      ⟨false, false, false, false⟩ [110, 97, 109, 97, 115, 116, 101] =
      namasteDev := by
    simp only [processSub]
    rw [hgN, if_neg (by decide)]
  have hsegN : transliterateSegment
      [([110, 97, 109, 97, 115, 116, 101], namasteDev)]
      ⟨false, false, false, false⟩ [110, 97, 109, 97, 115, 116, 101] =
      namasteDev := by
    simp only [transliterateSegment]
    rw [show (splitByte [110, 97, 109, 97, 115, 116, 101] 47).filter
        (fun t => t ≠ []) = [[110, 97, 109, 97, 115, 116, 101]] by decide]
    simp only [List.foldl_cons, List.foldl_nil, List.nil_append]
    exact hpsN
  have htokN : transliterateToken
      [([110, 97, 109, 97, 115, 116, 101], namasteDev)] []
      ⟨false, false, false, false⟩ [110, 97, 109, 97, 115, 116, 101] =
      namasteDev := by
    simp only [transliterateToken]
    rw [if_neg (by decide), if_neg (by decide), if_neg (by decide),
      show preprocess ⟨false, false, false, false⟩ []
        [110, 97, 109, 97, 115, 116, 101] =
        [110, 97, 109, 97, 115, 116, 101] from by decide]
    exact hsegN
  -- Stage 5: the mask token passes through untouched.
  have hgM : greedyLoop [([110, 97, 109, 97, 115, 116, 101], namasteDev)]
      ⟨false, false, false, false⟩ [36, 45, 49, 45, 36] =
      [36, 45, 49, 45, 36] := by
    simp [greedyLoop, tryMatch, lookupStr, elseStep, getB, isdigitB,
      isalnumB]
  have hpsM : processSub [([110, 97, 109, 97, 115, 116, 101], namasteDev)]
      ⟨false, false, false, false⟩ [36, 45, 49, 45, 36] =
      [36, 45, 49, 45, 36] := by
    simp only [processSub]
    rw [hgM, if_neg (by decide)]
  have hsegM : transliterateSegment
      [([110, 97, 109, 97, 115, 116, 101], namasteDev)]
      ⟨false, false, false, false⟩ [36, 45, 49, 45, 36] =
      [36, 45, 49, 45, 36] := by
    simp only [transliterateSegment]
    rw [show (splitByte [36, 45, 49, 45, 36] 47).filter
        (fun t => t ≠ []) = [[36, 45, 49, 45, 36]] by decide]
    simp only [List.foldl_cons, List.foldl_nil, List.nil_append]
    exact hpsM
  have htokM : transliterateToken
      [([110, 97, 109, 97, 115, 116, 101], namasteDev)] []
      ⟨false, false, false, false⟩ [36, 45, 49, 45, 36] =
      [36, 45, 49, 45, 36] := by
    simp only [transliterateToken]
    rw [if_neg (by decide), if_neg (by decide), if_neg (by decide),
      show preprocess ⟨false, false, false, false⟩ []
        [36, 45, 49, 45, 36] = [36, 45, 49, 45, 36] from by decide]
    exact hsegM
  -- Stage 6: joining the transliterated tokens.
  have hjoin : joinSpace [namasteDev, [36, 45, 49, 45, 36], namasteDev] =
      namasteDev ++ 32 :: ([36, 45, 49, 45, 36] ++ 32 :: namasteDev) := by
    simp [joinSpace]
  -- Stage 7: mask restoration splices the literal back in.
  have hrep : replaceAllFrom [36, 45, 49, 45, 36] s
      (namasteDev ++ 32 :: ([36, 45, 49, 45, 36] ++ 32 :: namasteDev)) 0 =
      namasteDev ++ [32] ++ s ++ [32] ++ namasteDev := by
    have hf1 : findSub
        (namasteDev ++ 32 :: ([36, 45, 49, 45, 36] ++ 32 :: namasteDev))
        [36, 45, 49, 45, 36] 0 = some 19 := by decide
    rw [replaceAllFrom_eq_step (by decide) hf1]
    have hrepl2 : replaceAt
        (namasteDev ++ 32 :: ([36, 45, 49, 45, 36] ++ 32 :: namasteDev))
        19 (List.length [36, 45, 49, 45, 36]) s =
        (namasteDev ++ [32]) ++ s ++ ([32] ++ namasteDev) := by
      have ht19 : List.take 19
          (namasteDev ++ 32 :: ([36, 45, 49, 45, 36] ++ 32 :: namasteDev)) =
          namasteDev ++ [32] := by decide
      have hd24 : List.drop (19 + List.length [36, 45, 49, 45, 36])
          (namasteDev ++ 32 :: ([36, 45, 49, 45, 36] ++ 32 :: namasteDev)) =
          [32] ++ namasteDev := by decide
      rw [replaceAt, ht19, hd24]
    rw [hrepl2]
    have hstop : findSub ((namasteDev ++ [32]) ++ s ++ ([32] ++ namasteDev))
        [36, 45, 49, 45, 36] (19 + s.length) = none := by
      rw [findSub]
      have hd : (((namasteDev ++ [32]) ++ s) ++
          ([32] ++ namasteDev)).drop (19 + s.length) =
          [32] ++ namasteDev :=
        List.drop_left' (by simp [namasteDev]; omega)
      rw [hd]
      exact findSubAux_none_head (by decide) (19 + s.length)
    rw [show (19 : Nat) + s.length = 19 + s.length from rfl]
    rw [replaceAllFrom_eq_stop (by decide) hstop]
    simp [List.append_assoc]
  -- Assembly.
  simp only [transliterate, hpre, hmask, hsplit, List.map_cons,
    List.map_nil, htokN, htokM, hjoin, List.foldl_cons, List.foldl_nil,
    hsegM, hrep]

set_option maxHeartbeats 1000000 in
set_option maxRecDepth 8192 in
/-- Witness for C7 at the spec's example: the output for
`"namaste {HELLO} namaste"` is exactly `नमस्ते HELLO नमस्ते` and contains the
byte string `HELLO` as an infix. -/
theorem claim_C7_literal_span_witness :
    (∀ c ∈ ([72, 69, 76, 76, 79] : Str), 65 ≤ c ∧ c ≤ 90) ∧
    transliterate [([110, 97, 109, 97, 115, 116, 101], namasteDev)] []
        ⟨false, false, false, false⟩
        ([110, 97, 109, 97, 115, 116, 101, 32, 123] ++
          [72, 69, 76, 76, 79] ++
          [125, 32, 110, 97, 109, 97, 115, 116, 101]) =
      namasteDev ++ [32] ++ [72, 69, 76, 76, 79] ++ [32] ++ namasteDev ∧
    List.IsInfix [72, 69, 76, 76, 79]
      (namasteDev ++ [32] ++ [72, 69, 76, 76, 79] ++ [32] ++ namasteDev) :=
  ⟨by decide,
   claim_C7_literal_span [72, 69, 76, 76, 79] (by decide),
   by decide⟩
